import Mathlib

/-!
Verification development for the kfs-merge schema-driven JSON merge engine.

The definitions below are a shallow embedding of the Go source:

* `Json` models a Go `any` value as produced by `encoding/json` decoding and
  as accepted by the merge engine (which additionally handles `int`-family
  values through `toFloat64` / `isPrimitive`).  JSON numbers are modelled
  with exact rationals; every value reachable in the claims is exactly
  representable as a `float64`, so no rounding behaviour is lost.
* Go maps (`map[string]any`, `map[any]int`, …) are modelled as association
  lists with first-match lookup and replace-or-append update.  Where Go map
  iteration order is unspecified, the embedding fixes the list order; no
  claim below depends on an unspecified order.
* Go's unbounded recursion is modelled with an explicit fuel argument:
  `ERes.diverge` means the recursion exceeded every finite call-stack bound.
  Fuel is consumed exactly once per nested `mergeValues` call (respectively
  per nested schema-node visit in the preprocessor).
-/

namespace KfsMerge

/-- A JSON value as held by the Go engine in an `any`.  `encoding/json`
decodes every JSON number into `float64`; the engine's helpers additionally
accept Go `int`-family values, hence the two numeric constructors. -/
inductive Json where
  | null
  | bool (b : Bool)
  | int (n : Int)
  | float (q : ℚ)
  | str (s : String)
  | arr (items : List Json)
  | obj (entries : List (String × Json))

mutual

/-- Decidable equality on `Json`, by mutual structural recursion through
the nested lists. -/
def Json.decEq : (a b : Json) → Decidable (a = b)
  | .null, .null => isTrue rfl
  | .bool x, .bool y =>
    if h : x = y then isTrue (by rw [h]) else isFalse (fun hh => by cases hh; exact h rfl)
  | .int x, .int y =>
    if h : x = y then isTrue (by rw [h]) else isFalse (fun hh => by cases hh; exact h rfl)
  | .float x, .float y =>
    if h : x = y then isTrue (by rw [h]) else isFalse (fun hh => by cases hh; exact h rfl)
  | .str x, .str y =>
    if h : x = y then isTrue (by rw [h]) else isFalse (fun hh => by cases hh; exact h rfl)
  | .arr xs, .arr ys =>
    match decEqJsonList xs ys with
    | isTrue h => isTrue (by rw [h])
    | isFalse h => isFalse (fun hh => by cases hh; exact h rfl)
  | .obj xs, .obj ys =>
    match decEqJsonObj xs ys with
    | isTrue h => isTrue (by rw [h])
    | isFalse h => isFalse (fun hh => by cases hh; exact h rfl)
  | .null, .bool _ | .null, .int _ | .null, .float _ | .null, .str _
  | .null, .arr _ | .null, .obj _
  | .bool _, .null | .bool _, .int _ | .bool _, .float _ | .bool _, .str _
  | .bool _, .arr _ | .bool _, .obj _
  | .int _, .null | .int _, .bool _ | .int _, .float _ | .int _, .str _
  | .int _, .arr _ | .int _, .obj _
  | .float _, .null | .float _, .bool _ | .float _, .int _ | .float _, .str _
  | .float _, .arr _ | .float _, .obj _
  | .str _, .null | .str _, .bool _ | .str _, .int _ | .str _, .float _
  | .str _, .arr _ | .str _, .obj _
  | .arr _, .null | .arr _, .bool _ | .arr _, .int _ | .arr _, .float _
  | .arr _, .str _ | .arr _, .obj _
  | .obj _, .null | .obj _, .bool _ | .obj _, .int _ | .obj _, .float _
  | .obj _, .str _ | .obj _, .arr _ => isFalse (fun hh => by cases hh)

def decEqJsonList : (xs ys : List Json) → Decidable (xs = ys)
  | [], [] => isTrue rfl
  | [], _ :: _ => isFalse (fun hh => by cases hh)
  | _ :: _, [] => isFalse (fun hh => by cases hh)
  | x :: xs, y :: ys =>
    match Json.decEq x y with
    | isFalse h => isFalse (fun hh => by cases hh; exact h rfl)
    | isTrue h1 =>
      match decEqJsonList xs ys with
      | isTrue h2 => isTrue (by rw [h1, h2])
      | isFalse h2 => isFalse (fun hh => by cases hh; exact h2 rfl)

def decEqJsonObj : (xs ys : List (String × Json)) → Decidable (xs = ys)
  | [], [] => isTrue rfl
  | [], _ :: _ => isFalse (fun hh => by cases hh)
  | _ :: _, [] => isFalse (fun hh => by cases hh)
  | (k, v) :: xs, (k2, v2) :: ys =>
    if hk : k = k2 then
      match Json.decEq v v2 with
      | isFalse h => isFalse (fun hh => by cases hh; exact h rfl)
      | isTrue h1 =>
        match decEqJsonObj xs ys with
        | isTrue h2 => isTrue (by rw [hk, h1, h2])
        | isFalse h2 => isFalse (fun hh => by cases hh; exact h2 rfl)
    else isFalse (fun hh => by cases hh; exact hk rfl)

end

instance : DecidableEq Json := Json.decEq

/-- First-match lookup in an association list (Go map read `m[k]`). -/
def lookupA {κ α : Type} [DecidableEq κ] : List (κ × α) → κ → Option α
  | [], _ => none
  | (k, v) :: rest, key => if k = key then some v else lookupA rest key

/-- Replace-or-append update of an association list (Go map write `m[k] = v`). -/
def setA {κ α : Type} [DecidableEq κ] : List (κ × α) → κ → α → List (κ × α)
  | [], key, v => [(key, v)]
  | (k, w) :: rest, key, v =>
    if k = key then (key, v) :: rest else (k, w) :: setA rest key v

/-- Per-field merge configuration (types.go `FieldMergeConfig`).  Strategy,
null-handling and operation are the raw strings of the Go string types. -/
structure FieldMergeConfig where
  strategy : String := ""
  discriminatorField : String := ""
  replaceOnMatch : Option Bool := none
  nullHandling : String := ""
  unique : Option Bool := none
  operation : String := ""
  deriving DecidableEq

/-- Schema-level merge configuration (types.go `GlobalMergeConfig`). -/
structure GlobalMergeConfig where
  defaultStrategy : String := ""
  arrayStrategy : String := ""
  nullHandling : String := ""
  applyDefaults : Bool := false
  deriving DecidableEq

/-- types.go `DefaultGlobalConfig`. -/
def DefaultGlobalConfig : GlobalMergeConfig :=
  { defaultStrategy := "deepMerge", arrayStrategy := "replace",
    nullHandling := "asValue", applyDefaults := false }

/-- types.go `UniqueOrDefault`: the `Unique` setting with default `false`. -/
def FieldMergeConfig.UniqueOrDefault (c : FieldMergeConfig) : Bool :=
  match c.unique with
  | some v => v
  | none => false

/-- types.go `OperationOrDefault`: the `Operation` setting with default `"sum"`. -/
def FieldMergeConfig.OperationOrDefault (c : FieldMergeConfig) : String :=
  if c.operation ≠ "" then c.operation else "sum"

/-- types.go `ReplaceOnMatchOrDefault`: strategy-specific default, `true`
for `mergeByDiscriminator` and `false` otherwise. -/
def FieldMergeConfig.ReplaceOnMatchOrDefault (c : FieldMergeConfig) : Bool :=
  match c.replaceOnMatch with
  | some v => v
  | none => if c.strategy = "mergeByDiscriminator" then true else false

/-- Result of a Go `(any, error)` computation under the fuel discipline:
`diverge` marks fuel exhaustion (the Go code would still be recursing),
`fail` a returned Go `error`, `ok` a returned value. -/
inductive ERes (α : Type) where
  | diverge
  | fail (msg : String)
  | ok (v : α)
  deriving DecidableEq

abbrev MRes := ERes Json

/-- The preprocessed schema handle (schema.go `Schema`).  The compiled
validator handle is external and read-only and is not represented; `raw` is
the generically parsed schema document (a `map[string]any` in Go). -/
structure Schema where
  raw : List (String × Json) := []
  globalConfig : GlobalMergeConfig := DefaultGlobalConfig
  fieldConfigs : List (String × FieldMergeConfig) := []
  defConfigs : List (String × FieldMergeConfig) := []
  refToDefName : List (String × String) := []
  defaults : Option (List (String × Json)) := none
  deriving DecidableEq

/-- The ref-binding prefix scan inside schema.go `FieldConfig`: for each
recorded binding path that is a strict prefix of `path`, look up the
definition configuration under `defName + ":" + relativeTail`; first hit
wins.  (Go iterates the map in unspecified order; the embedding iterates
the binding list in order.) -/
def refScan (defConfigs : List (String × FieldMergeConfig)) (path : String) :
    List (String × String) → Option FieldMergeConfig
  | [] => none
  | (basePath, defName) :: rest =>
    if path.length > basePath.length ∧ path.take basePath.length = basePath then
      match lookupA defConfigs (defName ++ ":" ++ path.drop basePath.length) with
      | some config => some config
      | none => refScan defConfigs path rest
    else refScan defConfigs path rest

/-- schema.go `FieldConfig`: direct hit in the field-configuration index,
else the ref-binding prefix scan. -/
def Schema.FieldConfig (s : Schema) (path : String) : Option FieldMergeConfig :=
  match lookupA s.fieldConfigs path with
  | some config => some config
  | none => refScan s.defConfigs path s.refToDefName

/-- schema.go `NullHandlingFor`: the direct field configuration's
null-handling when non-empty, else the global mode. -/
def Schema.NullHandlingFor (s : Schema) (path : String) : String :=
  match lookupA s.fieldConfigs path with
  | some config =>
    if config.nullHandling ≠ "" then config.nullHandling else s.globalConfig.nullHandling
  | none => s.globalConfig.nullHandling

def Json.isArr : Json → Bool
  | .arr _ => true
  | _ => false

def Json.isObj : Json → Bool
  | .obj _ => true
  | _ => false

/-- merger.go `getFieldConfig`: use the stored configuration only when it
carries a non-empty strategy; otherwise fall back to the global array
strategy (sequence A-operand) or the global default strategy. -/
def getFieldConfig (s : Schema) (a : Json) (path : String) : FieldMergeConfig :=
  match s.FieldConfig path with
  | some config =>
    if config.strategy ≠ "" then config
    else if a.isArr then { strategy := s.globalConfig.arrayStrategy }
    else { strategy := s.globalConfig.defaultStrategy }
  | none =>
    if a.isArr then { strategy := s.globalConfig.arrayStrategy }
    else { strategy := s.globalConfig.defaultStrategy }

/-- merger.go `handleNulls`.  Note that in the source every branch returns
the operands unchanged: under `asAbsent`, `a == nil` yields `(nil, b)` and
`b == nil` yields `(a, nil)`, which are the inputs themselves. -/
def handleNulls (s : Schema) (a b : Json) (path : String) : Json × Json :=
  let nullHandling := s.NullHandlingFor path
  if nullHandling = "asAbsent" then
    if a = Json.null then (Json.null, b)
    else if b = Json.null then (a, Json.null)
    else (a, b)
  else (a, b)

/-- strategies.go `toFloat64`: numeric view of a Go `any`. -/
def toFloat64 : Json → Option ℚ
  | .int n => some (n : ℚ)
  | .float q => some q
  | _ => none

/-- strategies.go `isPrimitive`: usable as a Go map key for deduplication. -/
def isPrimitive : Json → Bool
  | .str _ => true
  | .int _ => true
  | .float _ => true
  | .bool _ => true
  | _ => false

/-- The loop of strategies.go `deduplicateArray` with its `seen` set. -/
def dedupGo : List Json → List Json → List Json
  | [], _ => []
  | item :: rest, seen =>
    if isPrimitive item then
      if item ∈ seen then dedupGo rest seen
      else item :: dedupGo rest (item :: seen)
    else item :: dedupGo rest seen

/-- strategies.go `deduplicateArray`: drop repeated primitive items,
keeping first occurrences; non-primitive items are always kept. -/
def deduplicateArray (l : List Json) : List Json := dedupGo l []

/-- strategies.go `concatArrays`: B's items then A's items; with `unique`
the concatenation is deduplicated; a single non-array operand is an error
only when neither operand is an array. -/
def concatArrays (a b : Json) (unique : Bool) : MRes :=
  match a, b with
  | .arr aArr, .arr bArr =>
    if unique then .ok (.arr (deduplicateArray (bArr ++ aArr)))
    else .ok (.arr (bArr ++ aArr))
  | .arr aArr, _ =>
    if unique then .ok (.arr (deduplicateArray aArr)) else .ok (.arr aArr)
  | _, .arr bArr =>
    if unique then .ok (.arr (deduplicateArray bArr)) else .ok (.arr bArr)
  | _, _ => .fail "concat strategy requires arrays"

/-- strategies.go `numericOperation`: `sum` adds (always producing a
floating value, as the Go code returns a `float64`); `max`/`min` return
one of the two operands, choosing `a` only on a strict comparison. -/
def numericOperation (a b : Json) (operation : String) : MRes :=
  match toFloat64 a, toFloat64 b with
  | none, none => .fail "numeric strategy requires numbers"
  | none, some _ => .ok b
  | some _, none => .ok a
  | some aNum, some bNum =>
    if operation = "sum" then .ok (.float (aNum + bNum))
    else if operation = "max" then (if aNum > bNum then .ok a else .ok b)
    else if operation = "min" then (if aNum < bNum then .ok a else .ok b)
    else .fail ("unknown numeric operation: " ++ operation)

/-- The per-key loop of merger.go `deepMerge` over A's entries: a key absent
from B is appended; a key present in B is replaced in place (at B's
position) by the recursive merge.  `f` is the recursive `mergeValues`. -/
def dmEntries (f : Json → Json → String → MRes) (bMap : List (String × Json))
    (path : String) :
    List (String × Json) → List (String × Json) → ERes (List (String × Json))
  | [], acc => .ok acc
  | (k, aVal) :: rest, acc =>
    match lookupA bMap k with
    | none => dmEntries f bMap path rest (acc ++ [(k, aVal)])
    | some bVal =>
      match f aVal bVal (path ++ "/" ++ k) with
      | .ok merged => dmEntries f bMap path rest (setA acc k merged)
      | .fail e => .fail e
      | .diverge => .diverge

/-- merger.go `deepMerge`, parameterised by the recursive `mergeValues`:
two mappings merge entry-wise starting from a copy of B; otherwise A wins
when non-null, and a null A yields B exactly under `asAbsent`. -/
def deepMergeWith (s : Schema) (f : Json → Json → String → MRes)
    (a b : Json) (path : String) : MRes :=
  match a, b with
  | .obj aMap, .obj bMap =>
    match dmEntries f bMap path aMap bMap with
    | .ok entries => .ok (.obj entries)
    | .fail e => .fail e
    | .diverge => .diverge
  | _, _ =>
    if a = Json.null then
      if s.NullHandlingFor path = "asAbsent" then .ok b else .ok Json.null
    else .ok a

/-- The B-scan of strategies.go `mergeByDiscriminator`: index each
mapping-typed item of B that contains the field by its discriminator value,
first occurrence winning. -/
def buildBIndex (field : String) :
    List Json → Nat → List (Json × Nat) → List (Json × Nat)
  | [], _, acc => acc
  | item :: rest, i, acc =>
    match item with
    | .obj entries =>
      match lookupA entries field with
      | some discValue =>
        match lookupA acc discValue with
        | some _ => buildBIndex field rest (i + 1) acc
        | none => buildBIndex field rest (i + 1) (acc ++ [(discValue, i)])
      | none => buildBIndex field rest (i + 1) acc
    | _ => buildBIndex field rest (i + 1) acc

/-- The final pass of strategies.go `mergeByDiscriminator`: B's items whose
index was not consumed, in B's order. -/
def leftoverB : List Json → Nat → List Nat → List Json
  | [], _, _ => []
  | item :: rest, i, consumed =>
    if i ∈ consumed then leftoverB rest (i + 1) consumed
    else item :: leftoverB rest (i + 1) consumed

/-- Prepend an emitted item to the eventual item list of an `ERes`. -/
def consE (x : Json) : ERes (List Json) → ERes (List Json)
  | .ok l => .ok (x :: l)
  | .fail e => .fail e
  | .diverge => .diverge

/-- The A-walk of strategies.go `mergeByDiscriminator`: non-mapping items,
field-less mappings and unmatched discriminators pass through; a match
either keeps A's item (`replaceOnMatch`) or deep-merges with B's
counterpart at `path + "/" + i`, consuming B's slot either way; at the end
the unconsumed B items are appended.  `dm` is `deepMerge`. -/
def mbdLoop (dm : Json → Json → String → MRes) (field : String)
    (bArr : List Json) (bIndex : List (Json × Nat)) (replaceOnMatch : Bool)
    (path : String) :
    List Json → Nat → List Nat → ERes (List Json)
  | [], _, consumed => .ok (leftoverB bArr 0 consumed)
  | aItem :: rest, i, consumed =>
    match aItem with
    | .obj aEntries =>
      match lookupA aEntries field with
      | none =>
        consE aItem (mbdLoop dm field bArr bIndex replaceOnMatch path rest (i + 1) consumed)
      | some aDiscValue =>
        match lookupA bIndex aDiscValue with
        | none =>
          consE aItem (mbdLoop dm field bArr bIndex replaceOnMatch path rest (i + 1) consumed)
        | some bIdx =>
          if replaceOnMatch then
            consE aItem
              (mbdLoop dm field bArr bIndex replaceOnMatch path rest (i + 1) (bIdx :: consumed))
          else
            match dm aItem (bArr.getD bIdx Json.null) (path ++ "/" ++ toString i) with
            | .ok merged =>
              consE merged
                (mbdLoop dm field bArr bIndex replaceOnMatch path rest (i + 1) (bIdx :: consumed))
            | .fail e => .fail e
            | .diverge => .diverge
    | _ =>
      consE aItem (mbdLoop dm field bArr bIndex replaceOnMatch path rest (i + 1) consumed)

/-- strategies.go `mergeByDiscriminator`, parameterised by `deepMerge`.
When B is not a non-empty array the Go code returns `aArr` from the failed
type assertion, which is Go's nil slice when A is not an array; that nil
slice serializes as JSON `null` and is modelled as `Json.null`. -/
def mbdWith (dm : Json → Json → String → MRes) (a b : Json) (field : String)
    (replaceOnMatch : Bool) (path : String) : MRes :=
  match a, b with
  | .arr aArr, .arr bArr =>
    if bArr.isEmpty then .ok (.arr aArr)
    else if aArr.isEmpty then .ok (.arr bArr)
    else
      let field' := if field = "" then "type" else field
      match mbdLoop dm field' bArr (buildBIndex field' bArr 0 []) replaceOnMatch path aArr 0 [] with
      | .ok items => .ok (.arr items)
      | .fail e => .fail e
      | .diverge => .diverge
  | .arr aArr, _ => .ok (.arr aArr)
  | _, .arr bArr =>
    if bArr.isEmpty then .ok Json.null
    else .ok (.arr bArr)
  | _, _ => .fail "mergeByDiscriminator strategy requires arrays"

/-- merger.go `mergeValues`: apply `handleNulls`, resolve the effective
configuration via `getFieldConfig`, and dispatch on the strategy string;
an unmatched strategy falls through to the `deepMerge` default branch.
The fuel argument bounds the recursion depth. -/
def mergeValues (s : Schema) : Nat → Json → Json → String → MRes
  | 0, _, _, _ => .diverge
  | fuel + 1, a0, b0, path =>
    let p := handleNulls s a0 b0 path
    let a := p.1
    let b := p.2
    let config := getFieldConfig s a path
    if config.strategy = "keepBase" then .ok b
    else if config.strategy = "keepRequest" then .ok a
    else if config.strategy = "deepMerge" then
      deepMergeWith s (fun x y q => mergeValues s fuel x y q) a b path
    else if config.strategy = "replace" then
      (if a ≠ Json.null then .ok a else .ok b)
    else if config.strategy = "concat" then
      concatArrays a b config.UniqueOrDefault
    else if config.strategy = "mergeByDiscriminator" then
      mbdWith (deepMergeWith s (fun x y q => mergeValues s fuel x y q)) a b
        config.discriminatorField config.ReplaceOnMatchOrDefault path
    else if config.strategy = "numeric" then
      numericOperation a b config.OperationOrDefault
    else
      deepMergeWith s (fun x y q => mergeValues s fuel x y q) a b path

/-- merger.go `deepMerge` with the recursion tied back to `mergeValues`
at the given remaining depth. -/
def deepMerge (s : Schema) (fuel : Nat) (a b : Json) (path : String) : MRes :=
  deepMergeWith s (fun x y q => mergeValues s fuel x y q) a b path

/-- strategies.go `mergeByDiscriminator` with the nested `deepMerge`
tied back to `mergeValues` at the given remaining depth. -/
def mergeByDiscriminator (s : Schema) (fuel : Nat) (a b : Json)
    (field : String) (replaceOnMatch : Bool) (path : String) : MRes :=
  mbdWith (deepMergeWith s (fun x y q => mergeValues s fuel x y q)) a b field replaceOnMatch path

/-- schema.go `resolveRef`: only `#/$defs/NAME` refs are local. -/
def resolveRef (ref : String) : Option String :=
  let defsPrefix := "#/$defs/"
  if ref.length > defsPrefix.length ∧ ref.take defsPrefix.length = defsPrefix then
    some (ref.drop defsPrefix.length)
  else none

/-- The field-configuration literal built inside schema.go
`parseFieldConfigs` from an `x-kfs-merge` mapping: only `strategy`,
`discriminatorField`, `replaceOnMatch` and `nullHandling` are read, each
only when it has the expected type. -/
def parseMergeMap (mergeMap : List (String × Json)) : FieldMergeConfig :=
  { strategy :=
      match lookupA mergeMap "strategy" with
      | some (.str v) => v
      | _ => ""
    discriminatorField :=
      match lookupA mergeMap "discriminatorField" with
      | some (.str v) => v
      | _ => ""
    replaceOnMatch :=
      match lookupA mergeMap "replaceOnMatch" with
      | some (.bool v) => some v
      | _ => none
    nullHandling :=
      match lookupA mergeMap "nullHandling" with
      | some (.str v) => v
      | _ => "" }

/-- The two indices mutated by schema.go `parseFieldConfigs` during the
walk of the root schema. -/
structure PPState where
  fieldConfigs : List (String × FieldMergeConfig) := []
  refToDefName : List (String × String) := []
  deriving DecidableEq

/-- The local-`$ref` bookkeeping shared by the direct-ref and `anyOf`
branches of schema.go `parseFieldConfigs`: record `path ↦ defName`
(overwriting), then copy the definition's top-level configuration to the
path unless the path already has one. -/
def recordRef (defConfigs : List (String × FieldMergeConfig)) (path defName : String)
    (st : PPState) : PPState :=
  let st1 := { st with refToDefName := setA st.refToDefName path defName }
  match lookupA defConfigs defName with
  | some config =>
    match lookupA st1.fieldConfigs path with
    | some _ => st1
    | none => { st1 with fieldConfigs := setA st1.fieldConfigs path config }
  | none => st1

/-- The `anyOf` loop of schema.go `parseFieldConfigs`: every local-ref
alternative runs the ref inheritance rule, each assignment to
`refToDefName[path]` overwriting the previous one. -/
def processAnyOf (defConfigs : List (String × FieldMergeConfig)) (path : String) :
    List Json → PPState → PPState
  | [], st => st
  | alt :: rest, st =>
    match alt with
    | .obj altMap =>
      match lookupA altMap "$ref" with
      | some (.str ref) =>
        match resolveRef ref with
        | some defName => processAnyOf defConfigs path rest (recordRef defConfigs path defName st)
        | none => processAnyOf defConfigs path rest st
      | _ => processAnyOf defConfigs path rest st
    | _ => processAnyOf defConfigs path rest st

/-- The `oneOf` loop of schema.go `parseFieldConfigs`: a local-ref
alternative is recorded only when the path has no binding yet. -/
def processOneOf (path : String) : List Json → PPState → PPState
  | [], st => st
  | alt :: rest, st =>
    match alt with
    | .obj altMap =>
      match lookupA altMap "$ref" with
      | some (.str ref) =>
        match resolveRef ref with
        | some defName =>
          match lookupA st.refToDefName path with
          | some _ => processOneOf path rest st
          | none =>
            processOneOf path rest { st with refToDefName := setA st.refToDefName path defName }
        | none => processOneOf path rest st
      | _ => processOneOf path rest st
    | _ => processOneOf path rest st

/-- Sequencing of fallible preprocessor steps. -/
def thenE {α : Type} : ERes α → (α → ERes α) → ERes α
  | .ok v, f => f v
  | .fail e, _ => .fail e
  | .diverge, _ => .diverge

/-- The direct `x-kfs-merge` branch of schema.go `parseFieldConfigs`:
skipped at the root path, an error when the keyword is not a mapping,
otherwise an unconditional store at the path. -/
def pfcMergeStep (path : String) (node : List (String × Json)) (st : PPState) : ERes PPState :=
  match lookupA node "x-kfs-merge" with
  | some mergeRaw =>
    if path ≠ "" then
      match mergeRaw with
      | .obj mergeMap =>
        .ok { st with fieldConfigs := setA st.fieldConfigs path (parseMergeMap mergeMap) }
      | _ => .fail ("x-kfs-merge at " ++ path ++ " must be an object")
    else .ok st
  | none => .ok st

/-- The `properties` loop of schema.go `parseFieldConfigs`; `pf` is the
recursive call at the next depth. -/
def pfcProps (pf : String → List (String × Json) → PPState → ERes PPState) (path : String) :
    List (String × Json) → PPState → ERes PPState
  | [], st => .ok st
  | (propName, propValue) :: rest, st =>
    match propValue with
    | .obj propMap =>
      match pf (path ++ "/" ++ propName) propMap st with
      | .ok st1 => pfcProps pf path rest st1
      | .fail e => .fail e
      | .diverge => .diverge
    | _ => pfcProps pf path rest st

/-- The direct-`$ref` branch at the head of schema.go `parseFieldConfigs`. -/
def pfcRefStep (defConfigs : List (String × FieldMergeConfig)) (path : String)
    (node : List (String × Json)) (st : PPState) : PPState :=
  match lookupA node "$ref" with
  | some (.str ref) =>
    (match resolveRef ref with
     | some defName => recordRef defConfigs path defName st
     | none => st)
  | _ => st

/-- The `anyOf` branch of schema.go `parseFieldConfigs`. -/
def pfcAnyOfStep (defConfigs : List (String × FieldMergeConfig)) (path : String)
    (node : List (String × Json)) (st : PPState) : PPState :=
  match lookupA node "anyOf" with
  | some (.arr alts) => processAnyOf defConfigs path alts st
  | _ => st

/-- The `oneOf` branch of schema.go `parseFieldConfigs`. -/
def pfcOneOfStep (path : String) (node : List (String × Json)) (st : PPState) : PPState :=
  match lookupA node "oneOf" with
  | some (.arr alts) => processOneOf path alts st
  | _ => st

/-- The `properties` branch of schema.go `parseFieldConfigs`; `pf` is the
recursive call at the next depth. -/
def pfcPropsStep (pf : String → List (String × Json) → PPState → ERes PPState)
    (path : String) (node : List (String × Json)) (st : PPState) : ERes PPState :=
  match lookupA node "properties" with
  | some (.obj props) => pfcProps pf path props st
  | _ => .ok st

/-- The `items` branch of schema.go `parseFieldConfigs`. -/
def pfcItemsStep (pf : String → List (String × Json) → PPState → ERes PPState)
    (path : String) (node : List (String × Json)) (st : PPState) : ERes PPState :=
  match lookupA node "items" with
  | some (.obj itemsMap) => pf (path ++ "/items") itemsMap st
  | _ => .ok st

/-- schema.go `parseFieldConfigs`: direct `$ref` inheritance, direct
`x-kfs-merge` parsing, `anyOf`/`oneOf` ref inheritance, then recursion
into `properties` and `items`.  Fuel bounds the node depth. -/
def parseFieldConfigs (defConfigs : List (String × FieldMergeConfig)) :
    Nat → String → List (String × Json) → PPState → ERes PPState
  | 0, _, _, _ => .diverge
  | fuel + 1, path, node, st =>
    thenE (pfcMergeStep path node (pfcRefStep defConfigs path node st)) (fun st2 =>
      thenE (pfcPropsStep (fun p n stx => parseFieldConfigs defConfigs fuel p n stx) path node
          (pfcOneOfStep path node (pfcAnyOfStep defConfigs path node st2)))
        (fun st5 =>
          pfcItemsStep (fun p n stx => parseFieldConfigs defConfigs fuel p n stx) path node st5))

/-- The `properties` loop of schema.go `extractDefaultsFromNode`: collect
the non-nil recursively extracted defaults of mapping-typed properties;
`ef` is the recursive call at the next depth. -/
def edLeaves (ef : List (String × Json) → ERes (Option Json)) :
    List (String × Json) → ERes (List (String × Json))
  | [] => .ok []
  | (propName, propValue) :: rest =>
    match propValue with
    | .obj propMap =>
      match ef propMap with
      | .ok (some d) =>
        match edLeaves ef rest with
        | .ok tail => .ok ((propName, d) :: tail)
        | .fail e => .fail e
        | .diverge => .diverge
      | .ok none => edLeaves ef rest
      | .fail e => .fail e
      | .diverge => .diverge
    | _ => edLeaves ef rest

/-- The overlay at the end of schema.go `extractDefaultsFromNode`: start
from the node-level default mapping and write every leaf default over it. -/
def overlayA : List (String × Json) → List (String × Json) → List (String × Json)
  | base, [] => base
  | base, (k, v) :: rest => overlayA (setA base k v) rest

/-- schema.go `extractDefaultsFromNode`.  A local `$ref` recurses into its
target definition with no cycle detection whatsoever; `ERes.diverge` means
every finite recursion-depth bound is exceeded.  A Go `nil` interface
(absent key or JSON `null` value) is modelled as `none`. -/
def extractDefaultsFromNode (raw : List (String × Json)) :
    Nat → List (String × Json) → ERes (Option Json)
  | 0, _ => .diverge
  | fuel + 1, node =>
    match lookupA node "$ref" with
    | some (.str ref) =>
      (match resolveRef ref with
       | some defName =>
         match lookupA raw "$defs" with
         | some (.obj defs) =>
           (match lookupA defs defName with
            | some (.obj defNode) => extractDefaultsFromNode raw fuel defNode
            | _ => .ok none)
         | _ => .ok none
       | none => .ok none)
    | _ =>
      let nodeDefault : Option Json :=
        match lookupA node "default" with
        | some Json.null => none
        | some v => some v
        | none => none
      match lookupA node "properties" with
      | some (.obj props) =>
        (match edLeaves (fun n => extractDefaultsFromNode raw fuel n) props with
         | .ok leafDefaults =>
           (match nodeDefault with
            | none => if leafDefaults.isEmpty then .ok none else .ok (some (.obj leafDefaults))
            | some (.obj ndMap) => .ok (some (.obj (overlayA ndMap leafDefaults)))
            | some nd =>
              if leafDefaults.isEmpty then .ok (some nd) else .ok (some (.obj leafDefaults)))
         | .fail e => .fail e
         | .diverge => .diverge)
      | _ => .ok nodeDefault

/-- schema.go `ExtractDefaults`: return the cached defaults if present;
otherwise extract from the raw schema and cache the result exactly when it
is a mapping.  The returned schema is the (possibly mutated) receiver. -/
def ExtractDefaultsF (s : Schema) (fuel : Nat) :
    ERes (Option (List (String × Json)) × Schema) :=
  match s.defaults with
  | some d => .ok (some d, s)
  | none =>
    match extractDefaultsFromNode s.raw fuel s.raw with
    | .ok (some (.obj m)) => .ok (some m, { s with defaults := some m })
    | .ok _ => .ok (none, s)
    | .fail e => .fail e
    | .diverge => .diverge

/-- types.go `MergeOptions`. -/
structure MergeOptions where
  skipValidateA : Bool := false
  skipValidateB : Bool := false
  skipValidateResult : Bool := false
  applyDefaults : Option Bool := none
  deriving DecidableEq

/-- api.go `shouldApplyDefaults`: the option overrides the schema setting. -/
def shouldApplyDefaults (s : Schema) (opts : MergeOptions) : Bool :=
  match opts.applyDefaults with
  | some v => v
  | none => s.globalConfig.applyDefaults

/-- The value-level core of api.go `MergeWithOptions`, from the point where
both instances are parsed: optionally extract defaults (the only step that
touches the schema handle's state, through `ExtractDefaults`'s cache),
splice them under B via `merge(B, defaults)`, then merge A into the result.
The external validator reads the instances and the compiled schema only,
so the validation phases are not represented.  Returns the merge outcome
together with the schema handle's state after the call. -/
def mergeWithOptionsCore (s : Schema) (fuel : Nat) (aVal bVal : Json)
    (opts : MergeOptions) : MRes × Schema :=
  if shouldApplyDefaults s opts then
    match ExtractDefaultsF s fuel with
    | .ok (some dm, s1) =>
      (match mergeValues s1 fuel bVal (.obj dm) "" with
       | .ok bWithDefaults => (mergeValues s1 fuel aVal bWithDefaults "", s1)
       | .fail e => (.fail e, s1)
       | .diverge => (.diverge, s1))
    | .ok (none, s1) => (mergeValues s1 fuel aVal bVal "", s1)
    | .fail e => (.fail e, s)
    | .diverge => (.diverge, s)
  else (mergeValues s fuel aVal bVal "", s)

/-- The canonical strategy set of types.go. -/
def canonicalStrategies : List String :=
  ["keepBase", "keepRequest", "deepMerge", "replace", "concat",
   "mergeByDiscriminator", "numeric"]

/-- Observable for the keyed-merge claims: the discriminator value carried
by an item (a mapping containing the field), if any. -/
def discOf (field : String) : Json → Option Json
  | .obj entries => lookupA entries field
  | _ => none

/-- Observable: how many items of the list carry discriminator value `v`. -/
def discCount (field : String) (v : Json) : List Json → Nat
  | [] => 0
  | item :: rest =>
    (if discOf field item = some v then 1 else 0) + discCount field v rest

/-- Observable: the local-ref definition name carried by an alternative,
if any (a mapping with a string `$ref` of the form `#/$defs/NAME`). -/
def localRefOf : Json → Option String
  | .obj altMap =>
    (match lookupA altMap "$ref" with
     | some (.str ref) => resolveRef ref
     | _ => none)
  | _ => none

/-- Observable: the first local-ref definition name among `anyOf`/`oneOf`
alternatives, in order. -/
def firstLocalRef : List Json → Option String
  | [] => none
  | alt :: rest =>
    match localRefOf alt with
    | some defName => some defName
    | none => firstLocalRef rest

/-- Observable: the last local-ref definition name among alternatives. -/
def lastLocalRef : List Json → Option String
  | [] => none
  | alt :: rest =>
    match lastLocalRef rest with
    | some defName => some defName
    | none => localRefOf alt

/-- A JSON numeric literal: its exact value and whether the literal is
integral (no fractional part, no exponent) or floating. -/
structure NumLit where
  integral : Bool
  val : ℚ
  deriving DecidableEq

/-- How api.go's `json.Unmarshal` into `any` decodes a JSON number:
`encoding/json` produces a `float64` for every numeric literal, integral
or floating alike. -/
def goDecodeNum (l : NumLit) : Json := Json.float l.val

/-- The configuration `getFieldConfig` falls back to when no usable
per-field strategy is stored: only the global strategy, no per-field
options. -/
def fallbackConfig (s : Schema) (a : Json) : FieldMergeConfig :=
  if a.isArr then { strategy := s.globalConfig.arrayStrategy }
  else { strategy := s.globalConfig.defaultStrategy }

/-! ### General lemmas about the engine's entry steps -/

/-- `handleNulls` returns its operands unchanged in every branch: under
`asAbsent` a null A yields the pair `(null, b)` and a null B the pair
`(a, null)`, which are the inputs themselves. -/
theorem handleNulls_id (s : Schema) (a b : Json) (path : String) :
    handleNulls s a b path = (a, b) := by
  unfold handleNulls
  split_ifs <;> simp_all

/-- A stored configuration with a non-empty strategy is used as-is. -/
theorem getFieldConfig_of_some (s : Schema) (path : String) (cfg : FieldMergeConfig)
    (a : Json) (h1 : s.FieldConfig path = some cfg) (h2 : cfg.strategy ≠ "") :
    getFieldConfig s a path = cfg := by
  unfold getFieldConfig
  rw [h1]
  simp [h2]

/-! ### C3: numeric strategy (ties) -/

/-- C3, counterexample: the claim says that for numerically equal operands
`max` (and `min`) return the A-operand; on the numerically equal pair
`int 1` / `float 1` the code returns the B-operand, which is a different
value. -/
theorem numericOperation_tie_counterexample :
    numericOperation (Json.int 1) (Json.float 1) "max" = .ok (Json.float 1) ∧
    numericOperation (Json.int 1) (Json.float 1) "min" = .ok (Json.float 1) ∧
    Json.float 1 ≠ Json.int 1 := by decide

/-- C3 (amended): for numeric operands, `sum` returns the arithmetic sum
(always as a floating value), `max` returns the operand with the strictly
greater value and the B-operand on ties, `min` symmetrically with ties
also preferring B. -/
theorem numericOperation_spec (a b : Json) (x y : ℚ)
    (ha : toFloat64 a = some x) (hb : toFloat64 b = some y) :
    numericOperation a b "sum" = .ok (.float (x + y)) ∧
    (x > y → numericOperation a b "max" = .ok a) ∧
    (x ≤ y → numericOperation a b "max" = .ok b) ∧
    (x < y → numericOperation a b "min" = .ok a) ∧
    (y ≤ x → numericOperation a b "min" = .ok b) := by
  unfold numericOperation
  rw [ha, hb]
  exact ⟨by simp, fun h => by simp [h], fun h => by simp [not_lt.mpr h],
    fun h => by simp [h], fun h => by simp [not_lt.mpr h]⟩

/-- C3 witness. -/
theorem numericOperation_spec_witness :
    numericOperation (Json.int 3) (Json.int 5) "sum" = .ok (.float 8) ∧
    numericOperation (Json.int 3) (Json.int 5) "max" = .ok (Json.int 5) := by
  have h := numericOperation_spec (Json.int 3) (Json.int 5) 3 5 (by decide) (by decide)
  exact ⟨by rw [h.1]; norm_num, h.2.2.1 (by norm_num)⟩

/-! ### C9: numeric literal variants and dedup keys -/

/-- C9, counterexample: the claim says the decoded value model keeps `1`
and `1.0` distinct so that `concat` with `unique` retains both; in the
code `encoding/json` decodes both literals to the same `float64`, and the
deduplicated concatenation keeps a single item. -/
theorem goDecodeNum_collapse_counterexample :
    goDecodeNum { integral := true, val := 1 } = goDecodeNum { integral := false, val := 1 } ∧
    concatArrays (Json.arr [goDecodeNum { integral := true, val := 1 }])
        (Json.arr [goDecodeNum { integral := false, val := 1 }]) true =
      .ok (Json.arr [Json.float 1]) := by decide

/-- C9 (amended): decoding maps every numeric literal to the floating
variant, so two numerically equal literals decode to equal values and are
equal deduplication keys: `concat` with `unique` keeps only the first
occurrence. -/
theorem goDecodeNum_equal_keys (l1 l2 : NumLit) (h : l1.val = l2.val) :
    goDecodeNum l1 = goDecodeNum l2 ∧
    concatArrays (Json.arr [goDecodeNum l2]) (Json.arr [goDecodeNum l1]) true =
      .ok (Json.arr [Json.float l1.val]) := by
  refine ⟨by simp [goDecodeNum, h], ?_⟩
  simp [goDecodeNum, concatArrays, deduplicateArray, dedupGo, isPrimitive, h]

/-- C9 witness. -/
theorem goDecodeNum_equal_keys_witness :
    goDecodeNum { integral := true, val := 2 } = goDecodeNum { integral := false, val := 2 } ∧
    concatArrays (Json.arr [goDecodeNum { integral := false, val := 2 }])
        (Json.arr [goDecodeNum { integral := true, val := 2 }]) true =
      .ok (Json.arr [Json.float 2]) :=
  goDecodeNum_equal_keys { integral := true, val := 2 } { integral := false, val := 2 } rfl

/-! ### C4: unknown strategy names -/

/-- Schema with an unknown strategy name stored at `/v`. -/
def sBogus : Schema := { fieldConfigs := [("/v", { strategy := "bogus" })] }

/-- C4, counterexample: the claim says a strategy name outside the
canonical set fails at merge time; with strategy `"bogus"` at `/v` the
merge returns the deep-merge fallback result (A wins), not an error. -/
theorem unknownStrategy_no_error_counterexample :
    mergeValues sBogus 1 (Json.int 1) (Json.int 2) "/v" = .ok (Json.int 1) ∧
    ("bogus" ∈ canonicalStrategies) = False := by decide

/-- C4 (amended): a configured strategy name outside the canonical set is
not an error: `mergeValues` falls through to the default `deepMerge`
dispatch, and loading stores the unknown name without rejecting it. -/
theorem unknownStrategy_fallback (s : Schema) (path : String) (cfg : FieldMergeConfig)
    (h1 : s.FieldConfig path = some cfg) (h2 : cfg.strategy ∉ canonicalStrategies)
    (h3 : cfg.strategy ≠ "") :
    (∀ fuel a b, mergeValues s (fuel + 1) a b path = deepMerge s fuel a b path) ∧
    (∀ (st p : String) (defCfgs : List (String × FieldMergeConfig)) (fuel : Nat), p ≠ "" →
      parseFieldConfigs defCfgs (fuel + 1) p
          [("x-kfs-merge", Json.obj [("strategy", Json.str st)])] {} =
        .ok { fieldConfigs := [(p, { strategy := st })], refToDefName := [] }) := by
  have hne : ∀ t : String, t ∈ canonicalStrategies → cfg.strategy ≠ t :=
    fun t ht he => h2 (he ▸ ht)
  constructor
  · intro fuel a b
    have hkb := hne "keepBase" (by decide)
    have hkr := hne "keepRequest" (by decide)
    have hdm := hne "deepMerge" (by decide)
    have hrp := hne "replace" (by decide)
    have hcc := hne "concat" (by decide)
    have hmd := hne "mergeByDiscriminator" (by decide)
    have hnm := hne "numeric" (by decide)
    show mergeValues s (fuel + 1) a b path = deepMerge s fuel a b path
    simp only [mergeValues, handleNulls_id, getFieldConfig_of_some s path cfg a h1 h3]
    simp [hkb, hkr, hdm, hrp, hcc, hmd, hnm, deepMerge]
  · intro st p defCfgs fuel hp
    simp [parseFieldConfigs, pfcMergeStep, pfcRefStep, pfcAnyOfStep, pfcOneOfStep,
      pfcPropsStep, pfcItemsStep, lookupA, hp, thenE, parseMergeMap, setA]

/-- C4 witness. -/
theorem unknownStrategy_fallback_witness :
    mergeValues sBogus 1 (Json.str "a") (Json.str "b") "/v" =
      deepMerge sBogus 0 (Json.str "a") (Json.str "b") "/v" ∧
    parseFieldConfigs [] 1 "/w"
        [("x-kfs-merge", Json.obj [("strategy", Json.str "bogus")])] {} =
      .ok { fieldConfigs := [("/w", { strategy := "bogus" })], refToDefName := [] } := by
  have h := unknownStrategy_fallback sBogus "/v" { strategy := "bogus" }
    (by decide) (by decide) (by decide)
  exact ⟨h.1 0 (Json.str "a") (Json.str "b"), h.2 "bogus" "/w" [] 0 (by decide)⟩

/-! ### C10: stored configuration with empty strategy -/

/-- C10 (confirmed): a stored field configuration whose strategy is empty
makes `getFieldConfig` return exactly the global fallback configuration —
the same configuration as when no field configuration exists at the path —
and that fallback carries none of the stored per-field options
(`unique`, `discriminatorField`, `replaceOnMatch`, `operation`). -/
theorem emptyStrategy_fallback (s : Schema) (path : String) (cfg : FieldMergeConfig)
    (h1 : s.FieldConfig path = some cfg) (h2 : cfg.strategy = "") :
    (∀ a, getFieldConfig s a path = fallbackConfig s a) ∧
    (∀ (s2 : Schema) (a : Json), s2.FieldConfig path = none →
      s2.globalConfig = s.globalConfig → getFieldConfig s2 a path = getFieldConfig s a path) ∧
    (∀ a, (fallbackConfig s a).unique = none ∧
      (fallbackConfig s a).discriminatorField = "" ∧
      (fallbackConfig s a).replaceOnMatch = none ∧
      (fallbackConfig s a).operation = "") := by
  have hmain : ∀ a, getFieldConfig s a path = fallbackConfig s a := by
    intro a
    unfold getFieldConfig fallbackConfig
    rw [h1]
    simp [h2]
  refine ⟨hmain, fun s2 a hn hg => ?_, fun a => ?_⟩
  · rw [hmain a]
    unfold getFieldConfig fallbackConfig
    rw [hn, hg]
  · unfold fallbackConfig
    split_ifs <;> exact ⟨rfl, rfl, rfl, rfl⟩

/-- Schema used in the C10 witness: a configuration at `/u` that sets only
the `unique` option and no strategy. -/
def sUniqueOnly : Schema := { fieldConfigs := [("/u", { unique := some true })] }

/-- C10 witness. -/
theorem emptyStrategy_fallback_witness :
    getFieldConfig sUniqueOnly (Json.arr []) "/u" = { strategy := "replace" } ∧
    getFieldConfig sUniqueOnly (Json.int 1) "/u" = { strategy := "deepMerge" } := by
  have h := emptyStrategy_fallback sUniqueOnly "/u" { unique := some true }
    (by decide) (by decide)
  exact ⟨(h.1 (Json.arr [])).trans (by decide), (h.1 (Json.int 1)).trans (by decide)⟩

/-! ### C1: null handling under `asAbsent` -/

/-- Schema with `keepRequest` and `asAbsent` configured at `/v`. -/
def sKeepReqAbsent : Schema :=
  { fieldConfigs := [("/v", { strategy := "keepRequest", nullHandling := "asAbsent" })] }

/-- C1, counterexample: the claim says that under `asAbsent` a null
A-operand makes merge return the B-operand for every configured strategy;
with strategy `keepRequest` at `/v` the merge of null A with a string B
returns null, not B. -/
theorem asAbsent_keepRequest_counterexample :
    Schema.NullHandlingFor sKeepReqAbsent "/v" = "asAbsent" ∧
    mergeValues sKeepReqAbsent 1 Json.null (Json.str "x") "/v" = .ok Json.null ∧
    Json.null ≠ Json.str "x" := by decide

/-- C1 (amended): `handleNulls` rewrites nothing — the operands reach
strategy dispatch unchanged — and the null-to-counterpart behaviour holds
only strategy by strategy: under `deepMerge` and `replace` a null A yields
B and (for non-null A) a null B yields A; under `keepRequest` a null A is
returned as-is (a null B yields A); under `keepBase` a null B is returned
as-is (a null A yields B). -/
theorem asAbsent_null_by_strategy (s : Schema) (path : String) (cfg : FieldMergeConfig)
    (h1 : s.FieldConfig path = some cfg) (h2 : cfg.strategy ≠ "")
    (h3 : s.NullHandlingFor path = "asAbsent") (fuel : Nat) (a b : Json) :
    handleNulls s a b path = (a, b) ∧
    (cfg.strategy = "deepMerge" ∨ cfg.strategy = "replace" →
      mergeValues s (fuel + 1) Json.null b path = .ok b ∧
      (a ≠ Json.null → mergeValues s (fuel + 1) a Json.null path = .ok a)) ∧
    (cfg.strategy = "keepRequest" →
      mergeValues s (fuel + 1) Json.null b path = .ok Json.null ∧
      mergeValues s (fuel + 1) a Json.null path = .ok a) ∧
    (cfg.strategy = "keepBase" →
      mergeValues s (fuel + 1) a Json.null path = .ok Json.null ∧
      mergeValues s (fuel + 1) Json.null b path = .ok b) := by
  refine ⟨handleNulls_id s a b path, ?_, ?_, ?_⟩
  · rintro (hs | hs)
    · constructor
      · simp only [mergeValues, handleNulls_id, getFieldConfig_of_some s path cfg _ h1 h2]
        simp [hs, deepMergeWith, h3]
      · intro hna
        simp only [mergeValues, handleNulls_id, getFieldConfig_of_some s path cfg _ h1 h2]
        simp only [hs]
        simp only [deepMergeWith]
        cases a <;> simp_all [deepMergeWith, dmEntries]
    · constructor
      · simp only [mergeValues, handleNulls_id, getFieldConfig_of_some s path cfg _ h1 h2]
        simp [hs]
      · intro hna
        simp only [mergeValues, handleNulls_id, getFieldConfig_of_some s path cfg _ h1 h2]
        simp [hs, hna]
  · intro hs
    constructor <;>
      · simp only [mergeValues, handleNulls_id, getFieldConfig_of_some s path cfg _ h1 h2]
        simp [hs]
  · intro hs
    constructor <;>
      · simp only [mergeValues, handleNulls_id, getFieldConfig_of_some s path cfg _ h1 h2]
        simp [hs]

/-- Schema with `deepMerge` and `asAbsent` configured at `/v`. -/
def sDeepAbsent : Schema :=
  { fieldConfigs := [("/v", { strategy := "deepMerge", nullHandling := "asAbsent" })] }

/-- C1 witness. -/
theorem asAbsent_null_by_strategy_witness :
    mergeValues sDeepAbsent 1 Json.null (Json.str "x") "/v" = .ok (Json.str "x") ∧
    mergeValues sKeepReqAbsent 1 (Json.str "y") Json.null "/v" = .ok (Json.str "y") := by
  have hd := asAbsent_null_by_strategy sDeepAbsent "/v"
    { strategy := "deepMerge", nullHandling := "asAbsent" }
    (by decide) (by decide) (by decide) 0 (Json.str "y") (Json.str "x")
  have hk := asAbsent_null_by_strategy sKeepReqAbsent "/v"
    { strategy := "keepRequest", nullHandling := "asAbsent" }
    (by decide) (by decide) (by decide) 0 (Json.str "y") (Json.str "x")
  exact ⟨(hd.2.1 (Or.inl rfl)).1, (hk.2.2.1 rfl).2⟩

/-! ### C6: default extraction on cyclic schemas -/

/-- The self-referential definition node `{"$ref": "#/$defs/A"}`. -/
def cyclicDefNode : List (String × Json) := [("$ref", Json.str "#/$defs/A")]

/-- A schema document whose definition `A` refers to itself and whose
property `x` refers to `A`. -/
def cyclicRaw : List (String × Json) :=
  [("$defs", Json.obj [("A", Json.obj cyclicDefNode)]),
   ("properties", Json.obj [("x", Json.obj cyclicDefNode)])]

/-- The schema handle holding the cyclic document, as after load with
`applyDefaults` off. -/
def sCyclic : Schema := { raw := cyclicRaw }

/-- On the self-referential definition node the default-extraction
recursion consumes one fuel step per `$ref` hop and never returns. -/
theorem extract_cyclic_def_diverge :
    ∀ n, extractDefaultsFromNode cyclicRaw n cyclicDefNode = .diverge
  | 0 => rfl
  | n + 1 => extract_cyclic_def_diverge n

/-- C6: default extraction does not terminate on every schema — on the
cyclic schema it exhausts every finite recursion-depth bound instead of
detecting the revisited definition; there is no cycle detection in
`extractDefaultsFromNode`. -/
theorem extractDefaults_cycle_diverges :
    ∀ fuel, ExtractDefaultsF sCyclic fuel = .diverge := by
  intro fuel
  cases fuel with
  | zero => rfl
  | succ n =>
    have h := extract_cyclic_def_diverge n
    simp only [cyclicRaw, cyclicDefNode] at h
    simp [ExtractDefaultsF, sCyclic, extractDefaultsFromNode, cyclicRaw, cyclicDefNode,
      edLeaves, lookupA, h]

/-! ### C8: schema state across a merge call -/

/-- Schema with a property default, as after loading a document whose
schema-level `applyDefaults` is off (so nothing was cached at load). -/
def sDefaulted : Schema :=
  { raw := [("properties", Json.obj [("x", Json.obj [("default", Json.int 5)])])] }

/-- C8, counterexample: the claim says a merge call leaves the schema
handle exactly as at the end of loading; forcing defaults on through the
options makes the call populate the defaults cache, changing the handle. -/
theorem mergeState_mutation_counterexample :
    (mergeWithOptionsCore sDefaulted 3 (Json.obj []) (Json.obj [])
        { applyDefaults := some true }).2.defaults = some [("x", Json.int 5)] ∧
    sDefaulted.defaults = none ∧
    (mergeWithOptionsCore sDefaulted 3 (Json.obj []) (Json.obj [])
        { applyDefaults := some true }).2 ≠ sDefaulted := by decide

/-- `ExtractDefaults` either leaves the schema unchanged or only populates
the defaults cache. -/
theorem ExtractDefaultsF_state (s : Schema) (fuel : Nat)
    (d : Option (List (String × Json))) (s1 : Schema)
    (h : ExtractDefaultsF s fuel = .ok (d, s1)) :
    s1 = s ∨ ∃ m, s1 = { s with defaults := some m } := by
  unfold ExtractDefaultsF at h
  split at h
  · cases h
    exact Or.inl rfl
  · split at h
    · cases h
      exact Or.inr ⟨_, rfl⟩
    · cases h
      exact Or.inl rfl
    · cases h
    · cases h

/-- A cached defaults value is returned without touching the schema. -/
theorem ExtractDefaultsF_cached (s : Schema) (fuel : Nat)
    (d : List (String × Json)) (hd : s.defaults = some d) :
    ExtractDefaultsF s fuel = .ok (some d, s) := by
  unfold ExtractDefaultsF
  rw [hd]

/-- The schema state returned by a merge call is the input state, possibly
with the defaults cache populated. -/
theorem mergeWithOptionsCore_state (s : Schema) (fuel : Nat) (a b : Json)
    (opts : MergeOptions) :
    (mergeWithOptionsCore s fuel a b opts).2 = s ∨
    ∃ m, (mergeWithOptionsCore s fuel a b opts).2 = { s with defaults := some m } := by
  unfold mergeWithOptionsCore
  split
  · rcases hE : ExtractDefaultsF s fuel with _ | e | p
    · simp [hE]
    · simp [hE]
    · rcases p with ⟨d, s1⟩
      have hs1 := ExtractDefaultsF_state s fuel d s1 hE
      rcases d with _ | dm
      · simp only [hE]
        simpa using hs1
      · simp only [hE]
        split <;> simpa using hs1
  · simp

/-- When defaults are applied, the state returned by the merge call is the
state returned by `ExtractDefaults`. -/
theorem mergeWithOptionsCore_snd_of_extract (s s1 : Schema) (fuel : Nat) (a b : Json)
    (opts : MergeOptions) (d : Option (List (String × Json)))
    (hap : shouldApplyDefaults s opts = true)
    (hE : ExtractDefaultsF s fuel = .ok (d, s1)) :
    (mergeWithOptionsCore s fuel a b opts).2 = s1 := by
  unfold mergeWithOptionsCore
  rw [if_pos hap, hE]
  rcases d with _ | dm
  · rfl
  · rcases hm : mergeValues s1 fuel b (Json.obj dm) "" with _ | e | v <;> simp [hm]

/-- C8 (amended): a merge call leaves every schema field except the
defaults cache unchanged (global configuration, field/definition indices,
ref bindings, raw document); when the cache is already populated, or when
the call does not apply defaults, the schema handle is left fully
unchanged, exactly as at the end of loading. -/
theorem mergeState_frame (s : Schema) (fuel : Nat) (a b : Json) (opts : MergeOptions) :
    ((mergeWithOptionsCore s fuel a b opts).2.globalConfig = s.globalConfig ∧
     (mergeWithOptionsCore s fuel a b opts).2.fieldConfigs = s.fieldConfigs ∧
     (mergeWithOptionsCore s fuel a b opts).2.defConfigs = s.defConfigs ∧
     (mergeWithOptionsCore s fuel a b opts).2.refToDefName = s.refToDefName ∧
     (mergeWithOptionsCore s fuel a b opts).2.raw = s.raw) ∧
    (∀ d, s.defaults = some d → (mergeWithOptionsCore s fuel a b opts).2 = s) ∧
    (shouldApplyDefaults s opts = false → (mergeWithOptionsCore s fuel a b opts).2 = s) := by
  refine ⟨?_, fun d hd => ?_, fun hf => ?_⟩
  · rcases mergeWithOptionsCore_state s fuel a b opts with h | ⟨m, h⟩ <;> rw [h] <;>
      exact ⟨rfl, rfl, rfl, rfl, rfl⟩
  · by_cases hap : shouldApplyDefaults s opts = true
    · exact mergeWithOptionsCore_snd_of_extract s s fuel a b opts (some d) hap
        (ExtractDefaultsF_cached s fuel d hd)
    · unfold mergeWithOptionsCore
      rw [if_neg hap]
  · unfold mergeWithOptionsCore
    rw [if_neg (by simp [hf])]

/-- Schema whose defaults cache is already populated. -/
def sCached : Schema := { defaults := some [] }

/-- C8 witness. -/
theorem mergeState_frame_witness :
    (mergeWithOptionsCore sCached 1 Json.null Json.null { applyDefaults := some true }).2
      = sCached ∧
    (mergeWithOptionsCore sDefaulted 1 Json.null Json.null {}).2 = sDefaulted := by
  exact ⟨(mergeState_frame sCached 1 Json.null Json.null { applyDefaults := some true }).2.1
      [] (by decide),
    (mergeState_frame sDefaulted 1 Json.null Json.null {}).2.2 (by decide)⟩

/-! ### C7: the ref-to-definition index after the walk -/

/-- The key list of an association list. -/
def keysOf {κ α : Type} (l : List (κ × α)) : List κ := l.map Prod.fst

theorem lookupA_setA_self {κ α : Type} [DecidableEq κ] (l : List (κ × α)) (k : κ) (v : α) :
    lookupA (setA l k v) k = some v := by
  induction l with
  | nil => simp [setA, lookupA]
  | cons p rest ih =>
    obtain ⟨k1, w⟩ := p
    by_cases h : k1 = k
    · simp [setA, h, lookupA]
    · simp [setA, h, lookupA, ih]

theorem lookupA_setA_other {κ α : Type} [DecidableEq κ] (l : List (κ × α)) (k k2 : κ) (v : α)
    (h : k2 ≠ k) : lookupA (setA l k v) k2 = lookupA l k2 := by
  induction l with
  | nil =>
    have hne : ¬ (k = k2) := fun he => h he.symm
    simp [setA, lookupA, hne]
  | cons p rest ih =>
    obtain ⟨k1, w⟩ := p
    by_cases h1 : k1 = k
    · subst h1
      have hne : ¬ (k1 = k2) := fun he => h he.symm
      simp [setA, lookupA, hne]
    · simp [setA, h1, lookupA, ih]

theorem mem_keysOf_setA {κ α : Type} [DecidableEq κ] (l : List (κ × α)) (k x : κ) (v : α) :
    x ∈ keysOf (setA l k v) ↔ x ∈ keysOf l ∨ x = k := by
  induction l with
  | nil => simp [setA, keysOf]
  | cons p rest ih =>
    obtain ⟨k1, w⟩ := p
    by_cases h : k1 = k
    · subst h
      simp [setA, keysOf]
      tauto
    · simp [setA, h, keysOf] at ih ⊢
      tauto

theorem keysOf_setA_nodup {κ α : Type} [DecidableEq κ] (l : List (κ × α)) (k : κ) (v : α)
    (h : (keysOf l).Nodup) : (keysOf (setA l k v)).Nodup := by
  induction l with
  | nil => simp [setA, keysOf]
  | cons p rest ih =>
    obtain ⟨k1, w⟩ := p
    simp only [keysOf, List.map_cons, List.nodup_cons] at h
    by_cases hk : k1 = k
    · subst hk
      simpa [setA, keysOf] using h
    · simp only [setA, hk, if_false, keysOf, List.map_cons, List.nodup_cons]
      refine ⟨fun hmem => ?_, ih h.2⟩
      rcases (mem_keysOf_setA rest k k1 v).1 hmem with hm | hm
      · exact h.1 hm
      · exact hk hm

/-- `recordRef` updates the ref index by exactly one `setA`. -/
theorem recordRef_refs (defCfgs : List (String × FieldMergeConfig)) (path defName : String)
    (st : PPState) :
    (recordRef defCfgs path defName st).refToDefName = setA st.refToDefName path defName := by
  simp only [recordRef]
  split
  · split <;> rfl
  · rfl

/-- One step of the `anyOf` loop: record the alternative's local ref, if any. -/
theorem processAnyOf_cons (defCfgs : List (String × FieldMergeConfig)) (path : String)
    (alt : Json) (rest : List Json) (st : PPState) :
    processAnyOf defCfgs path (alt :: rest) st =
      processAnyOf defCfgs path rest
        (match localRefOf alt with
         | some defName => recordRef defCfgs path defName st
         | none => st) := by
  cases alt with
  | obj altMap =>
    simp only [processAnyOf, localRefOf]
    split
    · split <;> rfl
    · rfl
  | null => rfl
  | bool b => rfl
  | int n => rfl
  | float q => rfl
  | str sv => rfl
  | arr items => rfl

/-- One step of the `oneOf` loop: record the alternative's local ref only
when the path has no binding yet. -/
theorem processOneOf_cons (path : String) (alt : Json) (rest : List Json) (st : PPState) :
    processOneOf path (alt :: rest) st =
      processOneOf path rest
        (match localRefOf alt with
         | some defName =>
           (match lookupA st.refToDefName path with
            | some _ => st
            | none => { st with refToDefName := setA st.refToDefName path defName })
         | none => st) := by
  cases alt with
  | obj altMap =>
    simp only [processOneOf, localRefOf]
    split
    · split
      · split <;> rfl
      · rfl
    · rfl
  | null => rfl
  | bool b => rfl
  | int n => rfl
  | float q => rfl
  | str sv => rfl
  | arr items => rfl

/-- The `anyOf` loop leaves the index's binding for `path` at the last
local-ref alternative, or unchanged when there is none. -/
theorem processAnyOf_last (defCfgs : List (String × FieldMergeConfig)) (path : String) :
    ∀ (alts : List Json) (st : PPState),
      lookupA (processAnyOf defCfgs path alts st).refToDefName path =
        (match lastLocalRef alts with
         | some d => some d
         | none => lookupA st.refToDefName path) := by
  intro alts
  induction alts with
  | nil => intro st; rfl
  | cons alt rest ih =>
    intro st
    rw [processAnyOf_cons]
    cases hl : localRefOf alt with
    | none =>
      rw [ih st]
      cases hr : lastLocalRef rest <;> simp [lastLocalRef, hr, hl]
    | some d =>
      rw [ih (recordRef defCfgs path d st)]
      cases hr : lastLocalRef rest <;>
        simp [lastLocalRef, hr, hl, recordRef_refs, lookupA_setA_self]

/-- The `oneOf` loop records the first local-ref alternative when the path
has no binding yet. -/
theorem processOneOf_first (path : String) :
    ∀ (alts : List Json) (st : PPState),
      lookupA (processOneOf path alts st).refToDefName path =
        (match lookupA st.refToDefName path with
         | some d => some d
         | none => firstLocalRef alts) := by
  intro alts
  induction alts with
  | nil => intro st; cases h : lookupA st.refToDefName path <;> simp [processOneOf, firstLocalRef, h]
  | cons alt rest ih =>
    intro st
    rw [processOneOf_cons]
    cases hl : localRefOf alt with
    | none =>
      rw [ih st]
      cases h : lookupA st.refToDefName path <;> simp [firstLocalRef, h, hl]
    | some d =>
      cases h : lookupA st.refToDefName path with
      | some d2 => rw [ih st]; simp [h]
      | none =>
        rw [ih { st with refToDefName := setA st.refToDefName path d }]
        simp [lookupA_setA_self, firstLocalRef, hl, h]

/-- The `anyOf` loop preserves no-duplicate keys of the ref index. -/
theorem processAnyOf_refs_nodup (defCfgs : List (String × FieldMergeConfig)) (path : String) :
    ∀ (alts : List Json) (st : PPState), (keysOf st.refToDefName).Nodup →
      (keysOf (processAnyOf defCfgs path alts st).refToDefName).Nodup := by
  intro alts
  induction alts with
  | nil => exact fun st h => h
  | cons alt rest ih =>
    intro st h
    rw [processAnyOf_cons]
    cases localRefOf alt with
    | none => exact ih st h
    | some d =>
      apply ih
      rw [recordRef_refs]
      exact keysOf_setA_nodup _ _ _ h

/-- The `oneOf` loop preserves no-duplicate keys of the ref index. -/
theorem processOneOf_refs_nodup (path : String) :
    ∀ (alts : List Json) (st : PPState), (keysOf st.refToDefName).Nodup →
      (keysOf (processOneOf path alts st).refToDefName).Nodup := by
  intro alts
  induction alts with
  | nil => exact fun st h => h
  | cons alt rest ih =>
    intro st h
    rw [processOneOf_cons]
    cases localRefOf alt with
    | none => exact ih st h
    | some d =>
      cases hx : lookupA st.refToDefName path with
      | some d2 => exact ih st h
      | none => exact ih _ (keysOf_setA_nodup _ _ _ h)

/-- `pfcRefStep` preserves no-duplicate keys of the ref index. -/
theorem pfcRefStep_refs_nodup (defCfgs : List (String × FieldMergeConfig)) (path : String)
    (node : List (String × Json)) (st : PPState) (h : (keysOf st.refToDefName).Nodup) :
    (keysOf (pfcRefStep defCfgs path node st).refToDefName).Nodup := by
  unfold pfcRefStep
  split
  · split
    · rw [recordRef_refs]
      exact keysOf_setA_nodup _ _ _ h
    · exact h
  · exact h

/-- `pfcMergeStep` never touches the ref index. -/
theorem pfcMergeStep_refs (path : String) (node : List (String × Json)) (st st2 : PPState)
    (h : pfcMergeStep path node st = .ok st2) : st2.refToDefName = st.refToDefName := by
  unfold pfcMergeStep at h
  split at h
  · split at h
    · split at h
      · cases h; rfl
      · cases h
    · cases h; rfl
  · cases h; rfl

theorem thenE_ok {α : Type} (x : ERes α) (f : α → ERes α) (v : α)
    (h : thenE x f = .ok v) : ∃ w, x = .ok w ∧ f w = .ok v := by
  cases x with
  | ok w => exact ⟨w, rfl, h⟩
  | fail e => cases h
  | diverge => cases h

/-- The `properties` loop preserves any invariant of the ref index that
each recursive call preserves. -/
theorem pfcProps_refs_nodup (pf : String → List (String × Json) → PPState → ERes PPState)
    (hpf : ∀ p n st st2, pf p n st = .ok st2 →
      (keysOf st.refToDefName).Nodup → (keysOf st2.refToDefName).Nodup)
    (path : String) :
    ∀ (props : List (String × Json)) (st st2 : PPState),
      pfcProps pf path props st = .ok st2 →
      (keysOf st.refToDefName).Nodup → (keysOf st2.refToDefName).Nodup := by
  intro props
  induction props with
  | nil =>
    intro st st2 h hI
    cases h
    exact hI
  | cons p rest ih =>
    intro st st2 h hI
    obtain ⟨propName, propValue⟩ := p
    simp only [pfcProps] at h
    split at h
    · rename_i propMap
      cases hc : pf (path ++ "/" ++ propName) propMap st with
      | ok st1 =>
        rw [hc] at h
        exact ih st1 st2 h (hpf _ _ _ _ hc hI)
      | fail e => rw [hc] at h; cases h
      | diverge => rw [hc] at h; cases h
    · exact ih st st2 h hI

/-- The whole walk preserves no-duplicate keys of the ref index. -/
theorem parseFieldConfigs_refs_nodup (defCfgs : List (String × FieldMergeConfig)) :
    ∀ (fuel : Nat) (path : String) (node : List (String × Json)) (st st2 : PPState),
      parseFieldConfigs defCfgs fuel path node st = .ok st2 →
      (keysOf st.refToDefName).Nodup → (keysOf st2.refToDefName).Nodup := by
  intro fuel
  induction fuel with
  | zero => intro path node st st2 h; cases h
  | succ n ih =>
    intro path node st st2 h hI
    simp only [parseFieldConfigs] at h
    obtain ⟨stm, hm, h⟩ := thenE_ok _ _ _ h
    obtain ⟨stp, hp, h⟩ := thenE_ok _ _ _ h
    have hIm : (keysOf stm.refToDefName).Nodup := by
      rw [pfcMergeStep_refs _ _ _ _ hm]
      exact pfcRefStep_refs_nodup defCfgs path node st hI
    have hI4 : (keysOf (pfcOneOfStep path node (pfcAnyOfStep defCfgs path node stm)).refToDefName).Nodup := by
      unfold pfcOneOfStep pfcAnyOfStep
      split
      · apply processOneOf_refs_nodup
        split
        · exact processAnyOf_refs_nodup defCfgs path _ _ hIm
        · exact hIm
      · split
        · exact processAnyOf_refs_nodup defCfgs path _ _ hIm
        · exact hIm
    have hIp : (keysOf stp.refToDefName).Nodup := by
      revert hp
      unfold pfcPropsStep
      split
      · intro hp
        exact pfcProps_refs_nodup _ (fun p2 n2 s2 s3 => ih p2 n2 s2 s3) path _ _ _ hp hI4
      · intro hp
        cases hp
        exact hI4
    revert h
    unfold pfcItemsStep
    split
    · intro h
      exact ih _ _ _ _ h hIp
    · intro h
      cases h
      exact hIp

/-- The two `anyOf` alternatives `#/$defs/A` then `#/$defs/B`. -/
def altsAB : List Json :=
  [Json.obj [("$ref", Json.str "#/$defs/A")], Json.obj [("$ref", Json.str "#/$defs/B")]]

/-- A schema node carrying only that `anyOf`. -/
def anyOfNode : List (String × Json) := [("anyOf", Json.arr altsAB)]

/-- C7, counterexample: the claim says that for `anyOf` the recorded
binding is the first ref-bearing alternative; walking a node whose `anyOf`
lists `#/$defs/A` then `#/$defs/B` records `B` — the last alternative —
while the first ref-bearing alternative is `A`. -/
theorem anyOf_last_binding_counterexample :
    parseFieldConfigs [] 1 "/p" anyOfNode {} =
      .ok { fieldConfigs := [], refToDefName := [("/p", "B")] } ∧
    firstLocalRef altsAB = some "A" ∧
    lastLocalRef altsAB = some "B" := by decide

/-- C7 (amended): the walk keeps the ref-to-definition index free of
duplicate paths; for `oneOf` the binding recorded for a path with no
previous binding is the first ref-bearing alternative; for `anyOf` every
local-ref alternative overwrites the binding, so the recorded binding is
the last ref-bearing alternative. -/
theorem refIndex_invariants (defCfgs : List (String × FieldMergeConfig)) :
    (∀ (fuel : Nat) (path : String) (node : List (String × Json)) (st st2 : PPState),
      parseFieldConfigs defCfgs fuel path node st = .ok st2 →
      (keysOf st.refToDefName).Nodup → (keysOf st2.refToDefName).Nodup) ∧
    (∀ (path : String) (alts : List Json) (st : PPState),
      lookupA st.refToDefName path = none →
      lookupA (processOneOf path alts st).refToDefName path = firstLocalRef alts) ∧
    (∀ (path : String) (alts : List Json) (st : PPState) (d : String),
      lastLocalRef alts = some d →
      lookupA (processAnyOf defCfgs path alts st).refToDefName path = some d) := by
  refine ⟨parseFieldConfigs_refs_nodup defCfgs,
    fun path alts st h => ?_, fun path alts st d h => ?_⟩
  · rw [processOneOf_first path alts st]
    simp [h]
  · rw [processAnyOf_last defCfgs path alts st]
    simp [h]

/-- C7 witness. -/
theorem refIndex_invariants_witness :
    (keysOf (PPState.refToDefName
        { fieldConfigs := [], refToDefName := [("/p", "B")] })).Nodup ∧
    lookupA (processOneOf "/p" altsAB {}).refToDefName "/p" = some "A" ∧
    lookupA (processAnyOf [] "/p" altsAB {}).refToDefName "/p" = some "B" := by
  refine ⟨?_, ?_, ?_⟩
  · exact (refIndex_invariants []).1 1 "/p" anyOfNode {}
      { fieldConfigs := [], refToDefName := [("/p", "B")] } (by decide) (by decide)
  · exact ((refIndex_invariants []).2.1 "/p" altsAB {} (by decide)).trans (by decide)
  · exact (refIndex_invariants []).2.2 "/p" altsAB {} "B" (by decide)

/-! ### C5: deepMerge on two mappings -/

theorem lookupA_append {κ α : Type} [DecidableEq κ] (l1 l2 : List (κ × α)) (k : κ) :
    lookupA (l1 ++ l2) k =
      (match lookupA l1 k with
       | some v => some v
       | none => lookupA l2 k) := by
  induction l1 with
  | nil => simp [lookupA]
  | cons p rest ih =>
    obtain ⟨k1, v1⟩ := p
    by_cases h : k1 = k <;> simp [lookupA, h, ih]

theorem mem_keysOf_cons {κ α : Type} (p : κ × α) (rest : List (κ × α)) (k : κ) :
    k ∈ keysOf (p :: rest) ↔ k = p.1 ∨ k ∈ keysOf rest := by
  simp [keysOf]

theorem lookupA_eq_none_iff {κ α : Type} [DecidableEq κ] (l : List (κ × α)) (k : κ) :
    lookupA l k = none ↔ k ∉ keysOf l := by
  induction l with
  | nil => simp [lookupA, keysOf]
  | cons p rest ih =>
    obtain ⟨k1, v1⟩ := p
    by_cases h : k1 = k
    · subst h
      simp [lookupA, mem_keysOf_cons]
    · rw [show lookupA ((k1, v1) :: rest) k = lookupA rest k by simp [lookupA, h], ih,
        mem_keysOf_cons]
      have hne : ¬ k = k1 := fun he => h he.symm
      simp only []
      tauto

theorem lookupA_isSome_iff {κ α : Type} [DecidableEq κ] (l : List (κ × α)) (k : κ) :
    (lookupA l k).isSome = true ↔ k ∈ keysOf l := by
  cases hl : lookupA l k with
  | none =>
    simp only [Option.isSome_none, Bool.false_eq_true, false_iff]
    exact (lookupA_eq_none_iff l k).1 hl
  | some v =>
    simp only [Option.isSome_some, true_iff]
    by_contra hmem
    rw [← lookupA_eq_none_iff] at hmem
    rw [hmem] at hl
    cases hl

/-- Keys outside A's entry list keep their value from the accumulator. -/
theorem dmEntries_lookup_untouched (f : Json → Json → String → MRes)
    (lb : List (String × Json)) (path : String) :
    ∀ (la acc out : List (String × Json)) (k : String),
      dmEntries f lb path la acc = .ok out → k ∉ keysOf la →
      lookupA out k = lookupA acc k := by
  intro la
  induction la with
  | nil =>
    intro acc out k h hk
    cases h
    rfl
  | cons p rest ih =>
    intro acc out k h hk
    obtain ⟨k1, av⟩ := p
    simp only [keysOf, List.map_cons, List.mem_cons, not_or] at hk
    have hk1 : k ≠ k1 := hk.1
    have hkr : k ∉ keysOf rest := hk.2
    simp only [dmEntries] at h
    split at h
    · rw [ih _ _ _ h hkr, lookupA_append]
      cases hacc : lookupA acc k
      · have hne : ¬ (k1 = k) := fun he => hk1 he.symm
        simp [lookupA, hne]
      · simp
    · split at h
      · rw [ih _ _ _ h hkr, lookupA_setA_other _ _ _ _ hk1]
      · cases h
      · cases h

/-- A key of A absent from B ends at A's value. -/
theorem dmEntries_lookup_aOnly (f : Json → Json → String → MRes)
    (lb : List (String × Json)) (path : String) :
    ∀ (la acc out : List (String × Json)) (k : String) (v : Json),
      dmEntries f lb path la acc = .ok out → (keysOf la).Nodup →
      lookupA la k = some v → lookupA lb k = none → k ∉ keysOf acc →
      lookupA out k = some v := by
  intro la
  induction la with
  | nil =>
    intro acc out k v h _ hv
    cases hv
  | cons p rest ih =>
    intro acc out k v h hnd hv hlb hacc
    obtain ⟨k1, av⟩ := p
    simp only [keysOf, List.map_cons, List.nodup_cons] at hnd
    simp only [dmEntries] at h
    by_cases hk : k1 = k
    · subst hk
      have hva : av = v := by simpa [lookupA] using hv
      subst hva
      simp only [hlb] at h
      rw [dmEntries_lookup_untouched f lb path rest _ _ _ h hnd.1, lookupA_append,
        (lookupA_eq_none_iff acc k1).2 hacc]
      simp [lookupA]
    · have hvr : lookupA rest k = some v := by simpa [lookupA, hk] using hv
      split at h
      · refine ih _ _ _ _ h hnd.2 hvr hlb ?_
        simp only [keysOf, List.map_append, List.map_cons, List.map_nil, List.mem_append,
          List.mem_cons, List.not_mem_nil, or_false, not_or]
        exact ⟨fun hm => hacc hm, fun he => hk he.symm⟩
      · split at h
        · refine ih _ _ _ _ h hnd.2 hvr hlb ?_
          intro hmem
          rcases (mem_keysOf_setA acc k1 k _).1 hmem with hm | hm
          · exact hacc hm
          · exact hk hm.symm
        · cases h
        · cases h

/-- A key present in both A and B ends at the recursive merge of the two
values at `path + "/" + k`. -/
theorem dmEntries_lookup_both (f : Json → Json → String → MRes)
    (lb : List (String × Json)) (path : String) :
    ∀ (la acc out : List (String × Json)) (k : String) (va vb : Json),
      dmEntries f lb path la acc = .ok out → (keysOf la).Nodup →
      lookupA la k = some va → lookupA lb k = some vb →
      ∃ m, f va vb (path ++ "/" ++ k) = .ok m ∧ lookupA out k = some m := by
  intro la
  induction la with
  | nil =>
    intro acc out k va vb h _ hv
    cases hv
  | cons p rest ih =>
    intro acc out k va vb h hnd hv hlb
    obtain ⟨k1, av⟩ := p
    simp only [keysOf, List.map_cons, List.nodup_cons] at hnd
    simp only [dmEntries] at h
    by_cases hk : k1 = k
    · subst hk
      have hva : av = va := by simpa [lookupA] using hv
      subst hva
      simp only [hlb] at h
      cases hf : f av vb (path ++ "/" ++ k1) with
      | ok m =>
        simp only [hf] at h
        refine ⟨m, rfl, ?_⟩
        rw [dmEntries_lookup_untouched f lb path rest _ _ _ h hnd.1]
        exact lookupA_setA_self _ _ _
      | fail e =>
        simp only [hf] at h
        cases h
      | diverge =>
        simp only [hf] at h
        cases h
    · have hvr : lookupA rest k = some va := by simpa [lookupA, hk] using hv
      split at h
      · exact ih _ _ _ _ _ h hnd.2 hvr hlb
      · split at h
        · exact ih _ _ _ _ _ h hnd.2 hvr hlb
        · cases h
        · cases h

/-- C5 (confirmed): merging two mappings under `deepMerge` succeeds only
with a mapping result whose key set is the union of the two key sets; a
key only in B keeps B's value, a key only in A keeps A's value, and a key
in both holds the recursive merge of the two values at `path + "/" + k`.
In particular, with disjoint key sets every key falls in one of the two
verbatim cases.  (`Nodup` reflects that JSON parsing rejects duplicate
mapping keys.) -/
theorem deepMerge_obj_spec (s : Schema) (fuel : Nat) (path : String)
    (la lb : List (String × Json)) (hnd : (keysOf la).Nodup) :
    (∀ c, deepMerge s fuel (.obj la) (.obj lb) path = .ok c → c.isObj = true) ∧
    (∀ lc, deepMerge s fuel (.obj la) (.obj lb) path = .ok (.obj lc) →
      (∀ k, (lookupA lc k).isSome ↔ (lookupA la k).isSome ∨ (lookupA lb k).isSome) ∧
      (∀ k v, lookupA la k = some v → lookupA lb k = none → lookupA lc k = some v) ∧
      (∀ k v, lookupA lb k = some v → lookupA la k = none → lookupA lc k = some v) ∧
      (∀ k va vb, lookupA la k = some va → lookupA lb k = some vb →
        ∃ m, mergeValues s fuel va vb (path ++ "/" ++ k) = .ok m ∧
          lookupA lc k = some m)) := by
  constructor
  · intro c h
    simp only [deepMerge, deepMergeWith] at h
    split at h
    · cases h
      rfl
    · cases h
    · cases h
  · intro lc h
    have hdm : dmEntries (fun x y q => mergeValues s fuel x y q) lb path la lb = .ok lc := by
      simp only [deepMerge, deepMergeWith] at h
      split at h
      · rename_i entries heq
        cases h
        exact heq
      · cases h
      · cases h
    have hA := dmEntries_lookup_untouched (fun x y q => mergeValues s fuel x y q) lb path la lb lc
    have hB := dmEntries_lookup_aOnly (fun x y q => mergeValues s fuel x y q) lb path la lb lc
    have hC := dmEntries_lookup_both (fun x y q => mergeValues s fuel x y q) lb path la lb lc
    refine ⟨?_, ?_, ?_, ?_⟩
    · intro k
      rcases hla : lookupA la k with _ | va
      · rw [hA k hdm ((lookupA_eq_none_iff la k).1 hla)]
        simp [hla]
      · rcases hlb : lookupA lb k with _ | vb
        · rw [hB k va hdm hnd hla hlb ((lookupA_eq_none_iff lb k).1 hlb)]
          simp
        · obtain ⟨m, _, hm⟩ := hC k va vb hdm hnd hla hlb
          rw [hm]
          simp
    · intro k v hla hlb
      exact hB k v hdm hnd hla hlb ((lookupA_eq_none_iff lb k).1 hlb)
    · intro k v hlb hla
      rw [hA k hdm ((lookupA_eq_none_iff la k).1 hla)]
      exact hlb
    · intro k va vb hla hlb
      exact hC k va vb hdm hnd hla hlb

/-- The unconfigured schema (all defaults). -/
def sEmpty : Schema := {}

/-- C5 witness. -/
theorem deepMerge_obj_spec_witness :
    lookupA [(("b" : String), Json.int 2), ("c", Json.int 3), ("a", Json.int 1)] "a"
      = some (Json.int 1) ∧
    lookupA [(("b" : String), Json.int 2), ("c", Json.int 3), ("a", Json.int 1)] "b"
      = some (Json.int 2) ∧
    ∃ m, mergeValues sEmpty 1 (Json.int 3) (Json.int 4) "/c" = .ok m ∧
      lookupA [(("b" : String), Json.int 2), ("c", Json.int 3), ("a", Json.int 1)] "c" = some m := by
  have h := (deepMerge_obj_spec sEmpty 1 "" [("a", Json.int 1), ("c", Json.int 3)]
    [("b", Json.int 2), ("c", Json.int 4)] (by decide)).2
    [("b", Json.int 2), ("c", Json.int 3), ("a", Json.int 1)] (by decide)
  exact ⟨h.2.1 "a" (Json.int 1) (by decide) (by decide),
    h.2.2.1 "b" (Json.int 2) (by decide) (by decide),
    h.2.2.2 "c" (Json.int 3) (Json.int 4) (by decide) (by decide)⟩

/-! ### C2: keyed merge under mergeByDiscriminator -/

/-- Observable: the position of the first item carrying discriminator
value `v`, if any. -/
def firstIdx (field : String) (v : Json) : List Json → Option Nat
  | [] => none
  | item :: rest =>
    if discOf field item = some v then some 0
    else
      match firstIdx field v rest with
      | some j => some (j + 1)
      | none => none

/-- The consumed-slot set after the A-walk processes the given items with
`replaceOnMatch = true`: each keyed A item whose discriminator is in B's
index consumes that index. -/
def consumedAfter (field : String) (bIndex : List (Json × Nat)) :
    List Json → List Nat → List Nat
  | [], consumed => consumed
  | aItem :: rest, consumed =>
    match discOf field aItem with
    | some v =>
      (match lookupA bIndex v with
       | some bIdx => consumedAfter field bIndex rest (bIdx :: consumed)
       | none => consumedAfter field bIndex rest consumed)
    | none => consumedAfter field bIndex rest consumed

theorem discCount_append (field : String) (v : Json) (l1 l2 : List Json) :
    discCount field v (l1 ++ l2) = discCount field v l1 + discCount field v l2 := by
  induction l1 with
  | nil => simp [discCount]
  | cons x rest ih => simp [discCount, ih]; omega

theorem discCount_eq_zero_iff (field : String) (v : Json) (l : List Json) :
    discCount field v l = 0 ↔ ∀ x ∈ l, discOf field x ≠ some v := by
  induction l with
  | nil => simp [discCount]
  | cons x rest ih =>
    by_cases hd : discOf field x = some v <;> simp [discCount, hd, ih]

theorem discCount_pos (field : String) (v : Json) (l : List Json)
    (h : 1 ≤ discCount field v l) : ∃ j x, l.get? j = some x ∧ discOf field x = some v := by
  induction l with
  | nil => simp [discCount] at h
  | cons y rest ih =>
    by_cases hd : discOf field y = some v
    · exact ⟨0, y, rfl, hd⟩
    · simp only [discCount, hd, if_false, Nat.zero_add] at h
      obtain ⟨j, x, hg, hx⟩ := ih h
      exact ⟨j + 1, x, hg, hx⟩

theorem get?_of_mem {x : Json} : ∀ {l : List Json}, x ∈ l → ∃ j, l.get? j = some x := by
  intro l
  induction l with
  | nil => intro h; cases h
  | cons y rest ih =>
    intro h
    rcases List.mem_cons.1 h with h | h
    · exact ⟨0, by simp [h]⟩
    · obtain ⟨j, hj⟩ := ih h
      exact ⟨j + 1, hj⟩

theorem discCount_pos_of_get (field : String) (v : Json) :
    ∀ (l : List Json) (j : Nat) (x : Json), l.get? j = some x → discOf field x = some v →
      1 ≤ discCount field v l := by
  intro l
  induction l with
  | nil => intro j x h; cases h
  | cons y rest ih =>
    intro j x h hx
    cases j with
    | zero =>
      cases h
      simp [discCount, hx]
    | succ j2 =>
      have := ih j2 x h hx
      simp [discCount]
      omega

/-- `buildBIndex` aligned on `discOf`. -/
theorem buildBIndex_cons (field : String) (item : Json) (rest : List Json) (i : Nat)
    (acc : List (Json × Nat)) :
    buildBIndex field (item :: rest) i acc =
      (match discOf field item with
       | some discValue =>
         (match lookupA acc discValue with
          | some _ => buildBIndex field rest (i + 1) acc
          | none => buildBIndex field rest (i + 1) (acc ++ [(discValue, i)]))
       | none => buildBIndex field rest (i + 1) acc) := by
  cases item <;> rfl

/-- What `buildBIndex` records: the accumulator wins, else the first
occurrence's position offset by the starting counter. -/
theorem buildBIndex_lookup (field : String) (v : Json) :
    ∀ (items : List Json) (n : Nat) (acc : List (Json × Nat)),
      lookupA (buildBIndex field items n acc) v =
        (match lookupA acc v with
         | some i => some i
         | none =>
           match firstIdx field v items with
           | some j => some (n + j)
           | none => none) := by
  intro items
  induction items with
  | nil =>
    intro n acc
    cases h : lookupA acc v <;> simp [buildBIndex, firstIdx, h]
  | cons item rest ih =>
    intro n acc
    rw [buildBIndex_cons]
    rcases hd : discOf field item with _ | v2
    · simp only [hd]
      rw [ih]
      have hne : ¬ (discOf field item = some v) := by simp [hd]
      simp only [firstIdx, if_neg hne]
      cases h : lookupA acc v with
      | some i => simp [h]
      | none =>
        simp only [h]
        cases hf : firstIdx field v rest with
        | some j =>
          simp only [hf]
          congr 1
          omega
        | none => simp [hf]
    · by_cases hv : v2 = v
      · subst hv
        simp only [hd]
        cases ha : lookupA acc v2 with
        | some i =>
          simp only [ha]
          rw [ih]
          simp [ha, firstIdx, hd]
        | none =>
          simp only [ha]
          rw [ih]
          have happ : lookupA (acc ++ [(v2, n)]) v2 = some n := by
            rw [lookupA_append, ha]
            simp [lookupA]
          simp [happ, ha, firstIdx, hd]
      · have hne : ¬ (discOf field item = some v) := by simp [hd, hv]
        simp only [hd]
        cases ha : lookupA acc v2 with
        | some i =>
          simp only [ha]
          rw [ih]
          simp only [firstIdx, if_neg hne]
          cases h : lookupA acc v with
          | some i2 => simp [h]
          | none =>
            simp only [h]
            cases hf : firstIdx field v rest with
            | some j =>
              simp only [hf]
              congr 1
              omega
            | none => simp [hf]
        | none =>
          simp only [ha]
          rw [ih]
          have hvv : ¬ (v2 = v) := hv
          simp only [firstIdx, if_neg hne]
          cases h : lookupA acc v with
          | some i2 =>
            have happ : lookupA (acc ++ [(v2, n)]) v = some i2 := by
              rw [lookupA_append, h]
            simp [happ, h]
          | none =>
            have happ : lookupA (acc ++ [(v2, n)]) v = none := by
              rw [lookupA_append, h]
              simp [lookupA, hvv]
            simp only [happ, h]
            cases hf : firstIdx field v rest with
            | some j =>
              simp only [hf]
              congr 1
              omega
            | none => simp [hf]

/-- A recorded first occurrence points at an item carrying the value. -/
theorem firstIdx_some (field : String) (v : Json) :
    ∀ (items : List Json) (j : Nat), firstIdx field v items = some j →
      ∃ y, items.get? j = some y ∧ discOf field y = some v := by
  intro items
  induction items with
  | nil => intro j h; cases h
  | cons y rest ih =>
    intro j h
    by_cases hd : discOf field y = some v
    · simp only [firstIdx, if_pos hd] at h
      cases h
      exact ⟨y, rfl, hd⟩
    · simp only [firstIdx, if_neg hd] at h
      cases hf : firstIdx field v rest with
      | none => rw [hf] at h; cases h
      | some j2 =>
        rw [hf] at h
        cases h
        obtain ⟨y2, hg, hy2⟩ := ih j2 hf
        exact ⟨y2, hg, hy2⟩

/-- The first occurrence is no later than any occurrence. -/
theorem firstIdx_le (field : String) (v : Json) :
    ∀ (items : List Json) (i : Nat) (y : Json), items.get? i = some y →
      discOf field y = some v → ∃ j0, firstIdx field v items = some j0 ∧ j0 ≤ i := by
  intro items
  induction items with
  | nil => intro i y h; cases h
  | cons z rest ih =>
    intro i y h hy
    by_cases hd : discOf field z = some v
    · exact ⟨0, by simp [firstIdx, hd], Nat.zero_le i⟩
    · cases i with
      | zero =>
        cases h
        exact absurd hy hd
      | succ i2 =>
        obtain ⟨j0, hf, hle⟩ := ih i2 y h hy
        refine ⟨j0 + 1, ?_, by omega⟩
        simp [firstIdx, hd, hf]

/-- An unconsumed slot's item survives into the leftover pass. -/
theorem mem_leftoverB :
    ∀ (items : List Json) (n : Nat) (consumed : List Nat) (j : Nat) (x : Json),
      items.get? j = some x → (n + j) ∉ consumed → x ∈ leftoverB items n consumed := by
  intro items
  induction items with
  | nil => intro n consumed j x h; cases h
  | cons y rest ih =>
    intro n consumed j x h hnc
    cases j with
    | zero =>
      cases h
      have hn : n ∉ consumed := by simpa using hnc
      simp [leftoverB, if_neg hn]
    | succ j2 =>
      have : (n + 1) + j2 ∉ consumed := by
        intro hc
        exact hnc (by rw [show n + (j2 + 1) = (n + 1) + j2 by omega]; exact hc)
      have hmem := ih (n + 1) consumed j2 x h this
      by_cases hn : n ∈ consumed <;> simp [leftoverB, hn, hmem]

theorem discCount_leftoverB_le (field : String) (v : Json) :
    ∀ (items : List Json) (n : Nat) (consumed : List Nat),
      discCount field v (leftoverB items n consumed) ≤ discCount field v items := by
  intro items
  induction items with
  | nil => intro n consumed; simp [leftoverB]
  | cons y rest ih =>
    intro n consumed
    have hih := ih (n + 1) consumed
    by_cases hn : n ∈ consumed
    · simp only [leftoverB, if_pos hn, discCount]
      omega
    · simp only [leftoverB, if_neg hn, discCount]
      omega

/-- If every slot carrying the value is consumed, the leftover pass keeps
no item with that value. -/
theorem discCount_leftoverB_zero (field : String) (v : Json) :
    ∀ (items : List Json) (n : Nat) (consumed : List Nat),
      (∀ j x, items.get? j = some x → discOf field x = some v → (n + j) ∈ consumed) →
      discCount field v (leftoverB items n consumed) = 0 := by
  intro items
  induction items with
  | nil => intro n consumed _; simp [leftoverB, discCount]
  | cons y rest ih =>
    intro n consumed h
    have hrest : ∀ j x, rest.get? j = some x → discOf field x = some v →
        ((n + 1) + j) ∈ consumed := by
      intro j x hg hx
      have := h (j + 1) x hg hx
      rw [show n + (j + 1) = (n + 1) + j by omega] at this
      exact this
    by_cases hd : discOf field y = some v
    · have hn : n ∈ consumed := by simpa using h 0 y rfl hd
      simp only [leftoverB, if_pos hn]
      exact ih (n + 1) consumed hrest
    · by_cases hn : n ∈ consumed
      · simp only [leftoverB, if_pos hn]
        exact ih (n + 1) consumed hrest
      · simp only [leftoverB, if_neg hn, discCount, hd, if_neg hd]
        simpa using ih (n + 1) consumed hrest

/-- If the unique slot carrying the value is unconsumed, the leftover pass
keeps exactly one item with that value. -/
theorem discCount_leftoverB_one (field : String) (v : Json) :
    ∀ (items : List Json) (n : Nat) (consumed : List Nat) (j : Nat) (x : Json),
      items.get? j = some x → discOf field x = some v → (n + j) ∉ consumed →
      (∀ j2 x2, items.get? j2 = some x2 → discOf field x2 = some v → j2 = j) →
      discCount field v (leftoverB items n consumed) = 1 := by
  intro items
  induction items with
  | nil => intro n consumed j x h; cases h
  | cons y rest ih =>
    intro n consumed j x h hx hnc huniq
    cases j with
    | zero =>
      cases h
      have hn : n ∉ consumed := by simpa using hnc
      have hz : discCount field v rest = 0 := by
        rw [discCount_eq_zero_iff]
        intro z hz hdz
        obtain ⟨j2, hj2⟩ := get?_of_mem hz
        exact Nat.succ_ne_zero j2 (huniq (j2 + 1) z hj2 hdz)
      have hle := discCount_leftoverB_le field v rest (n + 1) consumed
      simp [leftoverB, hn, discCount, hx]
      omega
    | succ j2 =>
      have hdy : discOf field y ≠ some v := by
        intro hdy
        exact Nat.succ_ne_zero j2 (huniq 0 y rfl hdy).symm
      have hrec := ih (n + 1) consumed j2 x h hx
        (by rw [show (n + 1) + j2 = n + (j2 + 1) by omega]; exact hnc)
        (by
          intro j3 x3 hg hx3
          have := huniq (j3 + 1) x3 hg hx3
          omega)
      by_cases hn : n ∈ consumed
      · simpa [leftoverB, hn] using hrec
      · simpa [leftoverB, hn, discCount, hdy] using hrec

/-- Membership in the consumed set built by the `replaceOnMatch = true`
walk. -/
theorem mem_consumedAfter (field : String) (bIndex : List (Json × Nat)) :
    ∀ (aItems : List Json) (consumed : List Nat) (j : Nat),
      j ∈ consumedAfter field bIndex aItems consumed ↔
        j ∈ consumed ∨
          ∃ item ∈ aItems, ∃ v, discOf field item = some v ∧ lookupA bIndex v = some j := by
  intro aItems
  induction aItems with
  | nil => intro consumed j; simp [consumedAfter]
  | cons aItem rest ih =>
    intro consumed j
    rcases hd : discOf field aItem with _ | v
    · simp only [consumedAfter, hd]
      rw [ih]
      constructor
      · rintro (h | h)
        · exact Or.inl h
        · obtain ⟨it, hit, w, hw, hl⟩ := h
          exact Or.inr ⟨it, List.mem_cons_of_mem _ hit, w, hw, hl⟩
      · rintro (h | ⟨it, hit, w, hw, hl⟩)
        · exact Or.inl h
        · rcases List.mem_cons.1 hit with rfl | hit2
          · rw [hd] at hw
            cases hw
          · exact Or.inr ⟨it, hit2, w, hw, hl⟩
    · simp only [consumedAfter, hd]
      cases hb : lookupA bIndex v with
      | none =>
        rw [ih]
        constructor
        · rintro (h | ⟨it, hit, w, hw, hl⟩)
          · exact Or.inl h
          · exact Or.inr ⟨it, List.mem_cons_of_mem _ hit, w, hw, hl⟩
        · rintro (h | ⟨it, hit, w, hw, hl⟩)
          · exact Or.inl h
          · rcases List.mem_cons.1 hit with rfl | hit2
            · rw [hd] at hw
              cases hw
              rw [hb] at hl
              cases hl
            · exact Or.inr ⟨it, hit2, w, hw, hl⟩
      | some bIdx =>
        rw [ih]
        constructor
        · rintro (h | ⟨it, hit, w, hw, hl⟩)
          · rcases List.mem_cons.1 h with rfl | h2
            · exact Or.inr ⟨aItem, List.mem_cons_self _ _, v, hd, hb⟩
            · exact Or.inl h2
          · exact Or.inr ⟨it, List.mem_cons_of_mem _ hit, w, hw, hl⟩
        · rintro (h | ⟨it, hit, w, hw, hl⟩)
          · exact Or.inl (List.mem_cons_of_mem _ h)
          · rcases List.mem_cons.1 hit with rfl | hit2
            · rw [hd] at hw
              cases hw
              rw [hb] at hl
              cases hl
              exact Or.inl (List.mem_cons_self _ _)
            · exact Or.inr ⟨it, hit2, w, hw, hl⟩

/-- At most one occurrence of a discriminator value means all carrying
slots coincide. -/
theorem discCount_unique (field : String) (v : Json) :
    ∀ (l : List Json), discCount field v l ≤ 1 →
      ∀ (j1 : Nat) (x1 : Json) (j2 : Nat) (x2 : Json),
        l.get? j1 = some x1 → discOf field x1 = some v →
        l.get? j2 = some x2 → discOf field x2 = some v → j1 = j2 := by
  intro l
  induction l with
  | nil => intro _ j1 x1 j2 x2 h1; cases h1
  | cons y rest ih =>
    intro hle j1 x1 j2 x2 h1 hx1 h2 hx2
    cases j1 with
    | zero =>
      cases h1
      cases j2 with
      | zero => rfl
      | succ j2n =>
        have hrest := discCount_pos_of_get field v rest j2n x2 h2 hx2
        simp [discCount, hx1] at hle
        omega
    | succ j1n =>
      cases j2 with
      | zero =>
        cases h2
        have hrest := discCount_pos_of_get field v rest j1n x1 h1 hx1
        simp [discCount, hx2] at hle
        omega
      | succ j2n =>
        have hle2 : discCount field v rest ≤ 1 := by
          simp only [discCount] at hle
          omega
        have := ih hle2 j1n x1 j2n x2 h1 hx1 h2 hx2
        omega

/-- `mbdLoop` aligned on `discOf`. -/
theorem mbdLoop_cons (dm : Json → Json → String → MRes) (field : String)
    (bArr : List Json) (bIndex : List (Json × Nat)) (rep : Bool) (path : String)
    (aItem : Json) (rest : List Json) (i : Nat) (consumed : List Nat) :
    mbdLoop dm field bArr bIndex rep path (aItem :: rest) i consumed =
      (match discOf field aItem with
       | none => consE aItem (mbdLoop dm field bArr bIndex rep path rest (i + 1) consumed)
       | some v =>
         match lookupA bIndex v with
         | none => consE aItem (mbdLoop dm field bArr bIndex rep path rest (i + 1) consumed)
         | some bIdx =>
           if rep then
             consE aItem (mbdLoop dm field bArr bIndex rep path rest (i + 1) (bIdx :: consumed))
           else
             match dm aItem (bArr.getD bIdx Json.null) (path ++ "/" ++ toString i) with
             | .ok merged =>
               consE merged
                 (mbdLoop dm field bArr bIndex rep path rest (i + 1) (bIdx :: consumed))
             | .fail e => .fail e
             | .diverge => .diverge) := by
  cases aItem with
  | obj aEntries => simp only [mbdLoop, discOf]
  | null => rfl
  | bool b => rfl
  | int n => rfl
  | float q => rfl
  | str sv => rfl
  | arr items => rfl

/-- With `replaceOnMatch = true` the A-walk emits every A item verbatim and
appends the slots left unconsumed. -/
theorem mbdLoop_replaceTrue (dm : Json → Json → String → MRes) (field : String)
    (bArr : List Json) (bIndex : List (Json × Nat)) (path : String) :
    ∀ (aItems : List Json) (i : Nat) (consumed : List Nat),
      mbdLoop dm field bArr bIndex true path aItems i consumed =
        .ok (aItems ++ leftoverB bArr 0 (consumedAfter field bIndex aItems consumed)) := by
  intro aItems
  induction aItems with
  | nil => intro i consumed; rfl
  | cons aItem rest ih =>
    intro i consumed
    rw [mbdLoop_cons]
    rcases hd : discOf field aItem with _ | v
    · simp only [consumedAfter, hd]
      rw [ih]
      rfl
    · cases hb : lookupA bIndex v with
      | none =>
        simp only [consumedAfter, hd, hb]
        rw [ih]
        rfl
      | some bIdx =>
        simp only [consumedAfter, hd, hb, if_true]
        rw [ih]
        rfl

/-- A slot never pointed at by the index and not yet consumed survives
into the output, for either `replaceOnMatch` mode. -/
theorem mbdLoop_keeps (dm : Json → Json → String → MRes) (field : String)
    (bArr : List Json) (bIndex : List (Json × Nat)) (rep : Bool) (path : String) :
    ∀ (aItems : List Json) (i : Nat) (consumed : List Nat) (out : List Json),
      mbdLoop dm field bArr bIndex rep path aItems i consumed = .ok out →
      ∀ (j : Nat) (x : Json), bArr.get? j = some x → j ∉ consumed →
        (∀ w, lookupA bIndex w ≠ some j) → x ∈ out := by
  intro aItems
  induction aItems with
  | nil =>
    intro i consumed out h j x hg hjc hw
    cases h
    exact mem_leftoverB bArr 0 consumed j x hg (by simpa using hjc)
  | cons aItem rest ih =>
    intro i consumed out h j x hg hjc hw
    rw [mbdLoop_cons] at h
    rcases hd : discOf field aItem with _ | v
    · simp only [hd] at h
      cases hr : mbdLoop dm field bArr bIndex rep path rest (i + 1) consumed with
      | ok l =>
        simp only [hr, consE] at h
        cases h
        exact List.mem_cons_of_mem _ (ih (i + 1) consumed l hr j x hg hjc hw)
      | fail e => simp only [hr, consE] at h; cases h
      | diverge => simp only [hr, consE] at h; cases h
    · simp only [hd] at h
      cases hb : lookupA bIndex v with
      | none =>
        simp only [hb] at h
        cases hr : mbdLoop dm field bArr bIndex rep path rest (i + 1) consumed with
        | ok l =>
          simp only [hr, consE] at h
          cases h
          exact List.mem_cons_of_mem _ (ih (i + 1) consumed l hr j x hg hjc hw)
        | fail e => simp only [hr, consE] at h; cases h
        | diverge => simp only [hr, consE] at h; cases h
      | some bIdx =>
        simp only [hb] at h
        have hjb : j ∉ (bIdx :: consumed) := by
          intro hc
          rcases List.mem_cons.1 hc with rfl | hc2
          · exact hw v hb
          · exact hjc hc2
        cases rep with
        | true =>
          rw [if_pos rfl] at h
          cases hr : mbdLoop dm field bArr bIndex true path rest (i + 1) (bIdx :: consumed) with
          | ok l =>
            simp only [hr, consE] at h
            cases h
            exact List.mem_cons_of_mem _ (ih (i + 1) _ l hr j x hg hjb hw)
          | fail e => simp only [hr, consE] at h; cases h
          | diverge => simp only [hr, consE] at h; cases h
        | false =>
          rw [if_neg (by simp)] at h
          cases hdm : dm aItem (bArr.getD bIdx Json.null) (path ++ "/" ++ toString i) with
          | ok merged =>
            simp only [hdm] at h
            cases hr : mbdLoop dm field bArr bIndex false path rest (i + 1) (bIdx :: consumed) with
            | ok l =>
              simp only [hr, consE] at h
              cases h
              exact List.mem_cons_of_mem _ (ih (i + 1) _ l hr j x hg hjb hw)
            | fail e => simp only [hr, consE] at h; cases h
            | diverge => simp only [hr, consE] at h; cases h
          | fail e => simp only [hdm] at h; cases h
          | diverge => simp only [hdm] at h; cases h

/-- C2, counterexample: the claim says every discriminator value in A or B
appears in the result exactly once; with a duplicated value in B, the
A-item replaces B's first occurrence and B's later duplicate passes
through, so the value appears twice. -/
theorem mbd_duplicate_counterexample :
    mergeByDiscriminator sEmpty 1
        (Json.arr [Json.obj [("t", Json.str "x")]])
        (Json.arr [Json.obj [("t", Json.str "x")],
          Json.obj [("t", Json.str "x"), ("d", Json.int 1)]])
        "t" true "" =
      .ok (Json.arr [Json.obj [("t", Json.str "x")],
        Json.obj [("t", Json.str "x"), ("d", Json.int 1)]]) ∧
    discCount "t" (Json.str "x")
      [Json.obj [("t", Json.str "x")],
        Json.obj [("t", Json.str "x"), ("d", Json.int 1)]] = 2 := by decide

/-- C2 (amended): when every discriminator value occurs at most once in A
and at most once in B and `replaceOnMatch` is `true` (its default), every
discriminator value present in A or B appears in the result exactly once,
every A item appears in the result (in particular items whose value is
unique to A, unchanged), and a B item whose value does not occur in A
appears unchanged; independently of those hypotheses, B is indexed by the
first occurrence per discriminator value, and a later B-duplicate passes
through into the result verbatim under either `replaceOnMatch` mode. -/
theorem mbd_keyed_spec (s : Schema) (fuel : Nat) (f path : String) (hf : ¬ (f = "")) :
    (∀ (la lb : List Json),
      (∀ v, discCount f v la ≤ 1) → (∀ v, discCount f v lb ≤ 1) →
      ∃ lc, mergeByDiscriminator s fuel (.arr la) (.arr lb) f true path = .ok (.arr lc) ∧
        (∀ v, (1 ≤ discCount f v la ∨ 1 ≤ discCount f v lb) → discCount f v lc = 1) ∧
        (∀ item, item ∈ la → item ∈ lc) ∧
        (∀ item v, item ∈ lb → discOf f item = some v → discCount f v la = 0 → item ∈ lc)) ∧
    (∀ (rep : Bool) (la lb lc : List Json),
      mergeByDiscriminator s fuel (.arr la) (.arr lb) f rep path = .ok (.arr lc) →
      ∀ (i j : Nat) (bi bj : Json) (v : Json),
        lb.get? i = some bi → lb.get? j = some bj → i < j →
        discOf f bi = some v → discOf f bj = some v → bj ∈ lc) := by
  constructor
  · intro la lb hA1 hB1
    rcases lb with _ | ⟨b0, lb'⟩
    · refine ⟨la, by simp [mergeByDiscriminator, mbdWith], ?_, fun item h => h, ?_⟩
      · intro v hv
        rcases hv with hv | hv
        · have := hA1 v
          omega
        · simp [discCount] at hv
      · intro item v h
        simp at h
    · rcases la with _ | ⟨a0, la'⟩
      · refine ⟨b0 :: lb', by simp [mergeByDiscriminator, mbdWith], ?_, ?_, ?_⟩
        · intro v hv
          rcases hv with hv | hv
          · simp [discCount] at hv
          · have := hB1 v
            omega
        · intro item h
          simp at h
        · intro item v h _ _
          exact h
      · have hBidx : ∀ w, lookupA (buildBIndex f (b0 :: lb') 0 []) w =
            firstIdx f w (b0 :: lb') := by
          intro w
          rw [buildBIndex_lookup]
          simp only [lookupA]
          cases hfw : firstIdx f w (b0 :: lb') <;> simp [hfw]
        have hres : mergeByDiscriminator s fuel (.arr (a0 :: la')) (.arr (b0 :: lb')) f
            true path =
            .ok (.arr ((a0 :: la') ++ leftoverB (b0 :: lb') 0
              (consumedAfter f (buildBIndex f (b0 :: lb') 0 []) (a0 :: la') []))) := by
          simp only [mergeByDiscriminator, mbdWith, List.isEmpty_cons, Bool.false_eq_true,
            if_false]
          rw [if_neg hf, mbdLoop_replaceTrue]
        have hnotinC : ∀ (v : Json), ¬ 1 ≤ discCount f v (a0 :: la') →
            ∀ (j : Nat) (x : Json), (b0 :: lb').get? j = some x → discOf f x = some v →
              j ∉ consumedAfter f (buildBIndex f (b0 :: lb') 0 []) (a0 :: la') [] := by
          intro v hvA j x hg hx hjC
          rw [mem_consumedAfter] at hjC
          rcases hjC with h | ⟨item, hitem, w, hwitem, hwl⟩
          · simp at h
          · rw [hBidx w] at hwl
            obtain ⟨y, hgy, hy⟩ := firstIdx_some f w _ j hwl
            rw [hg] at hgy
            cases hgy
            rw [hx] at hy
            cases hy
            obtain ⟨ji, hji⟩ := get?_of_mem hitem
            exact hvA (discCount_pos_of_get f v _ ji item hji hwitem)
        refine ⟨_, hres, ?_, ?_, ?_⟩
        · intro v hv
          rw [discCount_append]
          by_cases hvA : 1 ≤ discCount f v (a0 :: la')
          · have hzero : discCount f v (leftoverB (b0 :: lb') 0
                (consumedAfter f (buildBIndex f (b0 :: lb') 0 []) (a0 :: la') [])) = 0 := by
              apply discCount_leftoverB_zero
              intro j x hg hx
              obtain ⟨ja, xa, hga, hxa⟩ := discCount_pos f v _ hvA
              obtain ⟨j0, hfj0, hj0le⟩ := firstIdx_le f v _ j x hg hx
              obtain ⟨y, hgy, hy⟩ := firstIdx_some f v _ j0 hfj0
              have hjj0 : j0 = j := discCount_unique f v _ (hB1 v) j0 y j x hgy hy hg hx
              have hbl : lookupA (buildBIndex f (b0 :: lb') 0 []) v = some j := by
                rw [hBidx v, hfj0, hjj0]
              rw [mem_consumedAfter]
              exact Or.inr ⟨xa, List.get?_mem hga, v, hxa, by simpa using hbl⟩
            rw [hzero]
            have := hA1 v
            omega
          · have hvB : 1 ≤ discCount f v (b0 :: lb') := by
              rcases hv with h | h
              · omega
              · exact h
            obtain ⟨j, x, hg, hx⟩ := discCount_pos f v _ hvB
            have hone : discCount f v (leftoverB (b0 :: lb') 0
                (consumedAfter f (buildBIndex f (b0 :: lb') 0 []) (a0 :: la') [])) = 1 := by
              apply discCount_leftoverB_one f v _ 0 _ j x hg hx
              · simpa using hnotinC v hvA j x hg hx
              · intro j2 x2 hg2 hx2
                exact discCount_unique f v _ (hB1 v) j2 x2 j x hg2 hx2 hg hx
            rw [hone]
            omega
        · intro item hmem
          exact List.mem_append.mpr (Or.inl hmem)
        · intro item v hmem hdisc hcount0
          obtain ⟨j, hg⟩ := get?_of_mem hmem
          have hvA : ¬ 1 ≤ discCount f v (a0 :: la') := by omega
          have hnot := hnotinC v hvA j item hg hdisc
          have hin := mem_leftoverB (b0 :: lb') 0 _ j item hg (by simpa using hnot)
          exact List.mem_append.mpr (Or.inr hin)
  · intro rep la lb lc h i j bi bj v hgi hgj hij hdi hdj
    rcases lb with _ | ⟨b0, lb'⟩
    · rcases j <;> simp [List.get?] at hgj
    · have hBidx : ∀ w, lookupA (buildBIndex f (b0 :: lb') 0 []) w =
          firstIdx f w (b0 :: lb') := by
        intro w
        rw [buildBIndex_lookup]
        simp only [lookupA]
        cases hfw : firstIdx f w (b0 :: lb') <;> simp [hfw]
      rcases la with _ | ⟨a0, la'⟩
      · have hlc : lc = b0 :: lb' := by
          simp only [mergeByDiscriminator, mbdWith, List.isEmpty_cons, List.isEmpty_nil,
            Bool.false_eq_true, if_false, if_true] at h
          cases h
          rfl
        rw [hlc]
        exact List.get?_mem hgj
      · simp only [mergeByDiscriminator, mbdWith, List.isEmpty_cons, Bool.false_eq_true,
          if_false] at h
        rw [if_neg hf] at h
        cases hr : mbdLoop (deepMergeWith s fun x y q => mergeValues s fuel x y q) f
            (b0 :: lb') (buildBIndex f (b0 :: lb') 0 []) rep path (a0 :: la') 0 [] with
        | ok items =>
          rw [hr] at h
          cases h
          have hw : ∀ w, lookupA (buildBIndex f (b0 :: lb') 0 []) w ≠ some j := by
            intro w hwl
            rw [hBidx w] at hwl
            obtain ⟨y, hgy, hy⟩ := firstIdx_some f w _ j hwl
            rw [hgj] at hgy
            cases hgy
            rw [hdj] at hy
            cases hy
            obtain ⟨j0, hfj0, hj0le⟩ := firstIdx_le f v _ i bi hgi hdi
            rw [hwl] at hfj0
            cases hfj0
            omega
          exact mbdLoop_keeps _ f (b0 :: lb') _ rep path (a0 :: la') 0 [] _ hr j bj hgj
            (by simp) hw
        | fail e => rw [hr] at h; cases h
        | diverge => rw [hr] at h; cases h

/-- C2 witness. -/
theorem mbd_keyed_spec_witness :
    ∃ lc, mergeByDiscriminator sEmpty 1 (Json.arr [Json.obj [("t", Json.str "a")]])
        (Json.arr [Json.obj [("t", Json.str "b")]]) "t" true "" = .ok (.arr lc) ∧
      discCount "t" (Json.str "a") lc = 1 ∧ discCount "t" (Json.str "b") lc = 1 := by
  obtain ⟨lc, hres, hcount, _, _⟩ := (mbd_keyed_spec sEmpty 1 "t" "" (by decide)).1
    [Json.obj [("t", Json.str "a")]] [Json.obj [("t", Json.str "b")]]
    (by intro v; simp [discCount, discOf, lookupA]; split <;> omega)
    (by intro v; simp [discCount, discOf, lookupA]; split <;> omega)
  exact ⟨lc, hres, hcount (Json.str "a") (Or.inl (by decide)),
    hcount (Json.str "b") (Or.inr (by decide))⟩

end KfsMerge
